import Mathlib

/-!
# Shortest paths by Dijkstra's algorithm (`dijkstra.cpp`)

A shallow embedding of the function `dijkstra` of `dijkstra.cpp` and of the sample graph built
in `main`, followed by the properties proved about them.

Modelling conventions.

* A node object is named by a natural number, its position in the list of node objects that
  makes up the graph.  A number that names no object of the list stands for a node without
  outgoing edges.
* Pointer values are only ever compared by the frontier `y`, whose entries are pairs
  `(distance, node*)` ordered lexicographically.  The function `addr` gives the machine
  address of every node; all results are stated for an arbitrary `addr`.
* `int` is the 32-bit two's complement integer: sums are reduced by `wrap`.
* The two `while` loops are driven by a fuel counter; one unit is spent per loop iteration.
-/

namespace Dijkstra

/-! ## Data model -/

/-- The value `numeric_limits<int>::max()`. -/
def INT_MAX : Int := 2147483647

/-- Reduction of an integer to the range of a 32-bit signed `int`. -/
def wrap (z : Int) : Int := (z + 2147483648) % 4294967296 - 2147483648

/-- The `struct node`: a value and the outgoing edges, each a weight and the node pointed to. -/
structure node where
  val : Int
  nei : List (Int × Nat)

/-- A graph is the list of its node objects; node `u` is the object at position `u`. -/
abbrev Graph := List node

/-- The edge list `u->nei`. -/
def neiAt (g : Graph) (u : Nat) : List (Int × Nat) :=
  match g[u]? with
  | some n => n.nei
  | none => []

/-- The local variables of `dijkstra`: the maps `parent` and `d`, the set `x` of black nodes
and the priority queue `y` of grey candidates. -/
structure State where
  parent : Nat → Option Nat
  d : Nat → Option Int
  x : List Nat
  y : List (Int × Nat)

/-- The assignment `m[k] = v` of a `std::map`. -/
def assign {α : Type} (m : Nat → Option α) (k : Nat) (v : α) : Nat → Option α :=
  fun j => if j = k then some v else m j

/-- The map after an access `m[k]`: an absent key is inserted with the default value `dflt`. -/
def touch {α : Type} (m : Nat → Option α) (k : Nat) (dflt : α) : Nat → Option α :=
  fun j => if j = k then some ((m k).getD dflt) else m j

/-- The value read by an access `m[k]`. -/
def readAt {α : Type} (m : Nat → Option α) (k : Nat) (dflt : α) : α := (m k).getD dflt

/-- The lambda `dist`: the recorded distance, or `INT_MAX` for a node without one. -/
def dist (d : Nat → Option Int) (v : Nat) : Int :=
  match d v with
  | none => INT_MAX
  | some k => k

/-- The order `operator<` on `pair<int, node*>`: lexicographic, pointers compared by address. -/
def pairLt (addr : Nat → Nat) (a b : Int × Nat) : Bool :=
  decide (a.1 < b.1) || (decide (a.1 = b.1) && decide (addr a.2 < addr b.2))

/-- The entry `y.top()` of the priority queue ordered by `greater<>`: a least entry. -/
def top (addr : Nat → Nat) : List (Int × Nat) → Option (Int × Nat)
  | [] => none
  | e :: es =>
    match top addr es with
    | none => some e
    | some m => if pairLt addr m e then some m else some e

/-- The set operation `x.insert(u)`. -/
def setInsert (x : List Nat) (u : Nat) : List Nat := if u ∈ x then x else u :: x

/-! ## The function dijkstra -/

/-- The state after `y.pop(); x.insert(u);` where `e` is the top entry and `u` its node. -/
def settle (s : State) (e : Int × Nat) : State :=
  { s with y := s.y.erase e, x := setInsert s.x e.2 }

/-- One pass through the body of the `for` loop, for the edge `n` out of `u`.  The accesses
`d[u]` happen only when the edge is not skipped; the node `n.second` then differs from `u`
whenever `u` is black, so the order in which `dist(n.second)` and `d[u]` are evaluated does
not matter. -/
def relax (u : Nat) (s : State) (n : Int × Nat) : State :=
  if n.2 ∈ s.x then s
  else
    let d1 := touch s.d u 0
    let cand := wrap (readAt s.d u 0 + n.1)
    if dist d1 n.2 > cand then
      { s with d := assign d1 n.2 cand, parent := assign s.parent n.2 u, y := (cand, n.2) :: s.y }
    else { s with d := d1 }

/-- The body of the main loop after the test `target == u` failed: settle `u`, relax its edges. -/
def iter (g : Graph) (s : State) (e : Int × Nat) : State :=
  (neiAt g e.2).foldl (relax e.2) (settle s e)

/-- The inner loop `while( u != src ) { path.push_front(u); u = parent[u]; }` followed by
`path.push_front(src)`.  An absent `parent[u]` yields the null pointer, from which the loop
never reaches `src`: no result. -/
def rebuild (parent : Nat → Option Nat) (src : Nat) : Nat → Nat → List Nat → Option (List Nat)
  | 0, u, path => if u = src then some (src :: path) else none
  | fuel + 1, u, path =>
    if u = src then some (src :: path)
    else
      match parent u with
      | none => none
      | some p => rebuild parent src fuel p (u :: path)

/-- The state on entry of the main loop. -/
def init (src : Nat) : State :=
  { parent := assign (fun _ => none) src src
    d := assign (fun _ => none) src 0
    x := []
    y := [(0, src)] }

/-- The main loop `while( !y.empty() )`.  The result is the state in which the loop was left
together with the list written by the early exit, if the loop was left that way; `none` when
the fuel does not suffice. -/
def loop (g : Graph) (addr : Nat → Nat) (src target : Nat) :
    Nat → State → Option (State × Option (List Nat))
  | 0, _ => none
  | fuel + 1, s =>
    match top addr s.y with
    | none => some (s, none)
    | some e =>
      if target = e.2 then
        (rebuild s.parent src fuel e.2 []).map (fun p => (s, some p))
      else loop g addr src target fuel (iter g s e)

/-- The final state and early-exit list of a call `dijkstra(src, target, path)`. -/
def run (g : Graph) (addr : Nat → Nat) (src target fuel : Nat) :
    Option (State × Option (List Nat)) :=
  loop g addr src target fuel (init src)

/-- The function `dijkstra`: the content of `path` when the call returns. -/
def dijkstra (g : Graph) (addr : Nat → Nat) (src target : Nat) (path : List Nat) (fuel : Nat) :
    Option (List Nat) :=
  (run g addr src target fuel).map (fun r => r.2.getD path)

/-! ## The graph of main and other concrete graphs and states -/

/-- The graph built in `main`: `n1 .. n6` are the nodes `0 .. 5`. -/
def sample : Graph :=
  [ ⟨1, [(1, 1), (4, 2)]⟩,
    ⟨2, [(1, 3), (2, 4)]⟩,
    ⟨3, []⟩,
    ⟨4, [(1, 2), (2, 4)]⟩,
    ⟨5, [(1, 5)]⟩,
    ⟨6, [(1, 1)]⟩ ]

/-- The values printed by `main` for a list of nodes. -/
def vals (g : Graph) (path : List Nat) : List Int :=
  path.filterMap (fun u => (g[u]?).map node.val)

/-- Two nodes without any edge. -/
def isolated : Graph := [⟨1, []⟩, ⟨2, []⟩]

/-- Two nodes joined by one edge of weight `INT_MAX`. -/
def heavy : Graph := [⟨1, [(2147483647, 1)]⟩, ⟨2, []⟩]

/-- The state of the sample graph, for `src = n1`, after three iterations. -/
def sampleThird : State :=
  iter sample (iter sample (iter sample (init 0) (0, 0)) (1, 1)) (2, 3)

/-- The state of the sample graph, for `src = n1` and `target = n6`, after five iterations. -/
def sampleStale : State :=
  iter sample (iter sample (iter sample (iter sample (iter sample (init 0) (0, 0)) (1, 1)) (2, 3))
    (3, 2)) (3, 4)

/-! ## The variant with a settled-check at pop time -/

/-- The variant of the loop body that discards the popped entry when its node is black. -/
def iterSkip (g : Graph) (s : State) (e : Int × Nat) : State :=
  if e.2 ∈ s.x then { s with y := s.y.erase e } else iter g s e

/-- The main loop of the variant with a settled-check at pop time. -/
def loopSkip (g : Graph) (addr : Nat → Nat) (src target : Nat) :
    Nat → State → Option (State × Option (List Nat))
  | 0, _ => none
  | fuel + 1, s =>
    match top addr s.y with
    | none => some (s, none)
    | some e =>
      if target = e.2 then
        (rebuild s.parent src fuel e.2 []).map (fun p => (s, some p))
      else loopSkip g addr src target fuel (iterSkip g s e)

/-- The variant of `dijkstra` with a settled-check at pop time. -/
def dijkstraSkip (g : Graph) (addr : Nat → Nat) (src target : Nat) (path : List Nat)
    (fuel : Nat) : Option (List Nat) :=
  (loopSkip g addr src target fuel (init src)).map (fun r => r.2.getD path)

/-! ## Walks, weights and shortest distances -/

/-- There is an edge from `a` to `b`. -/
def Edge (g : Graph) (a b : Nat) : Prop := ∃ w, (w, b) ∈ neiAt g a

/-- A walk from `a` along edges of the graph, with its end node and its total weight. -/
inductive Walk (g : Graph) (a : Nat) : Nat → Int → Prop
  | nil : Walk g a a 0
  | snoc {b c : Nat} {W w : Int} : Walk g a b W → (w, c) ∈ neiAt g b → Walk g a c (W + w)

/-- The target `b` is connected to `a` by a walk. -/
def Reachable (g : Graph) (a b : Nat) : Prop := ∃ W, Walk g a b W

/-- The number `k` is the least total weight of a walk from `src` to `v`. -/
def IsShortest (g : Graph) (src v : Nat) (k : Int) : Prop :=
  Walk g src v k ∧ ∀ k', Walk g src v k' → k ≤ k'

/-- Every edge weight of the graph is non-negative. -/
def NonNeg (g : Graph) : Prop := ∀ nd ∈ g, ∀ n ∈ nd.nei, 0 ≤ n.1

instance (g : Graph) : Decidable (NonNeg g) := by unfold NonNeg; infer_instance

/-- Sum of the weights of the edges leaving the nodes of the list `x`. -/
def weightSum (g : Graph) (x : List Nat) : Int :=
  (x.map (fun u => ((neiAt g u).map Prod.fst).sum)).sum

/-- Sum of the weights of all edges of the graph. -/
def totalWeight (g : Graph) : Int := weightSum g (List.range g.length)

/-- Weight of the lightest edge with end node `b` in an edge list. -/
def lightest (b : Nat) : List (Int × Nat) → Option Int
  | [] => none
  | n :: ns =>
    if n.2 = b then
      match lightest b ns with
      | none => some n.1
      | some m => some (min n.1 m)
    else lightest b ns

/-- Total weight of a list of nodes, taking the lightest edge between consecutive nodes;
`none` when two consecutive nodes are joined by no edge, or the list is empty. -/
def pathWeight (g : Graph) : List Nat → Option Int
  | [] => none
  | [_] => some 0
  | a :: b :: rest =>
    match lightest b (neiAt g a), pathWeight g (b :: rest) with
    | some w, some r => some (w + r)
    | _, _ => none

/-! ## Reachable states, invariants and fuel -/

/-- Number of edges leaving the nodes of the list `x`. -/
def degSum (g : Graph) (x : List Nat) : Nat := (x.map (fun u => (neiAt g u).length)).sum

/-- Number of edges of the graph. -/
def numEdges (g : Graph) : Nat := degSum g (List.range g.length)

/-- Fuel that suffices for every call on the graph `g`. -/
def enough (g : Graph) : Nat := 2 * numEdges g + 3

/-- The states in which the test `while( !y.empty() )` is evaluated during a call
`dijkstra(src, target, path)`, with the number of iterations performed before. -/
inductive Reach (g : Graph) (addr : Nat → Nat) (src target : Nat) : Nat → State → Prop
  | start : Reach g addr src target 0 (init src)
  | step {t : Nat} {s : State} {e : Int × Nat} :
      Reach g addr src target t s → top addr s.y = some e → target ≠ e.2 →
      Reach g addr src target (t + 1) (iter g s e)

/-- The invariant of `dijkstra` that holds whatever the weights are.  `t` counts the iterations
of the main loop performed so far; inside the `for` loop over the edges of `u`, `pend` is the
list of edges still to be visited (`pend = []` between two iterations of the main loop). -/
structure Inv (g : Graph) (src target : Nat) (t : Nat) (u : Nat) (pend : List (Int × Nat))
    (s : State) : Prop where
  x_nodup : s.x.Nodup
  d_src : s.d src = some 0
  par_src : s.parent src = some src
  tgt : target ∉ s.x
  y_d : ∀ e ∈ s.y, ∃ k, s.d e.2 = some k
  x_d : ∀ v ∈ s.x, ∃ k, s.d v = some k
  d_par : ∀ v k, s.d v = some k → ∃ p, s.parent v = some p
  conn : ∀ v k, s.d v = some k → ∃ W, Walk g src v W
  par : ∀ v p, s.parent v = some p → v ≠ src →
    p ∈ s.x ∧ (∃ w, (w, v) ∈ neiAt g p) ∧ ∀ l1 l2, s.x = l1 ++ v :: l2 → p ∈ l2
  relaxed : ∀ a ∈ s.x, ∀ n ∈ neiAt g a,
    (a = u ∧ n ∈ pend) ∨ n.2 ∈ s.x ∨ dist s.d n.2 ≤ wrap (readAt s.d a 0 + n.1)
  start : src ∈ s.x ∨ (s.x = [] ∧ s.y = [(0, src)] ∧ pend = [])
  pend_sub : ∀ n ∈ pend, n ∈ neiAt g u ∧ u ∈ s.x
  x_len : s.x.length ≤ t
  cnt : t + s.y.length + pend.length ≤ 1 + degSum g s.x

/-- The part of the invariant that needs the weights to be non-negative and their sum to stay
below `INT_MAX`: recorded distances are weights of walks, those of black nodes are least,
and the frontier holds the recorded distance of every grey node. -/
structure Opt (g : Graph) (src : Nat) (s : State) : Prop where
  ach : ∀ v k, s.d v = some k → Walk g src v k
  opt : ∀ v ∈ s.x, ∀ k, s.d v = some k → ∀ k', Walk g src v k' → k ≤ k'
  front : ∀ v k, s.d v = some k → v ∉ s.x → (k, v) ∈ s.y
  ykey : ∀ e ∈ s.y, ∃ k, s.d e.2 = some k ∧ k ≤ e.1
  bound : ∀ v k, s.d v = some k → k ≤ weightSum g s.x
  bound_x : ∀ a ∈ s.x, ∀ n ∈ neiAt g a, ∀ k, s.d a = some k → k + n.1 ≤ weightSum g s.x
  pd : ∀ v p, s.parent v = some p → v ≠ src →
    ∃ w kp, (w, v) ∈ neiAt g p ∧ s.d p = some kp ∧ s.d v = some (kp + w)

/-! ## The nodes settled by a call -/

/-- The nodes `u` for which the step `y.pop(); x.insert(u);` followed by the `for` loop over
the edges of `u` is executed by the main loop started in state `s`, in the order of
execution. -/
def pops (g : Graph) (addr : Nat → Nat) (src target : Nat) : Nat → State → List Nat
  | 0, _ => []
  | fuel + 1, s =>
    match top addr s.y with
    | none => []
    | some e =>
      if target = e.2 then [] else e.2 :: pops g addr src target fuel (iter g s e)

/-- The nodes for which that step is executed while they are not black yet. -/
def freshPops (g : Graph) (addr : Nat → Nat) (src target : Nat) : Nat → State → List Nat
  | 0, _ => []
  | fuel + 1, s =>
    match top addr s.y with
    | none => []
    | some e =>
      if target = e.2 then []
      else if e.2 ∈ s.x then freshPops g addr src target fuel (iter g s e)
      else e.2 :: freshPops g addr src target fuel (iter g s e)

/-- A node with an edge to itself of weight `5` and an edge of weight `1` to a second node. -/
def looped : Graph := [⟨1, [(5, 0), (1, 1)]⟩, ⟨2, []⟩]

/-- A graph with an edge of negative weight: `src` is node `0`, `a` node `1`, `b` node `2` and
`t` node `3`, with the edges `src -> a` of weight `2`, `src -> b` of weight `3`, `a -> t` of
weight `1` and `b -> a` of weight `-2`. -/
def negGraph : Graph :=
  [ ⟨0, [(2, 1), (3, 2)]⟩,
    ⟨1, [(1, 3)]⟩,
    ⟨2, [(-2, 1)]⟩,
    ⟨3, []⟩ ]

/-- The state of `negGraph`, for `src = 0`, after two iterations. -/
def negSecond : State := iter negGraph (iter negGraph (init 0) (0, 0)) (2, 1)

/-- The part of the invariant that bounds the recorded distances, for non-negative weights
whose sum is at most `INT_MAX`: a recorded distance is non-negative and at most the sum of
the weights of the edges that leave black nodes, and so is every candidate `d[a] + w` for an
edge out of a black node `a`. -/
structure Bnd (g : Graph) (s : State) : Prop where
  nonneg : ∀ v k, s.d v = some k → 0 ≤ k
  bound : ∀ v k, s.d v = some k → k ≤ weightSum g s.x
  bound_x : ∀ a ∈ s.x, ∀ n ∈ neiAt g a, ∀ k, s.d a = some k → k + n.1 ≤ weightSum g s.x

/-! ## Elementary facts about the operations -/

theorem wrap_of_range {z : Int} (h1 : -2147483648 ≤ z) (h2 : z ≤ 2147483647) : wrap z = z := by
  unfold wrap; omega

theorem wrap_le_max (z : Int) : wrap z ≤ INT_MAX := by
  unfold wrap INT_MAX; omega

theorem touch_of_some {α : Type} {m : Nat → Option α} {k : Nat} {a dflt : α}
    (h : m k = some a) : touch m k dflt = m := by
  funext j
  unfold touch
  by_cases hj : j = k
  · subst hj; simp [h]
  · simp [hj]

theorem readAt_of_some {α : Type} {m : Nat → Option α} {k : Nat} {a dflt : α}
    (h : m k = some a) : readAt m k dflt = a := by
  simp [readAt, h]

theorem dist_of_some {d : Nat → Option Int} {v : Nat} {k : Int} (h : d v = some k) :
    dist d v = k := by
  simp [dist, h]

theorem dist_le_max_of_none {d : Nat → Option Int} {v : Nat} (h : d v = none) :
    dist d v = INT_MAX := by
  simp [dist, h]

theorem dist_assign_le {d : Nat → Option Int} {v : Nat} {c : Int} (h : c ≤ dist d v) (a : Nat) :
    dist (assign d v c) a ≤ dist d a := by
  by_cases ha : a = v
  · subst ha
    simpa [dist, assign] using h
  · simp [dist, assign, ha]

theorem top_eq_none {addr : Nat → Nat} {y : List (Int × Nat)} (h : top addr y = none) :
    y = [] := by
  cases y with
  | nil => rfl
  | cons e es =>
    unfold top at h
    split at h
    · cases h
    · split at h <;> cases h

theorem top_mem {addr : Nat → Nat} {y : List (Int × Nat)} {e : Int × Nat}
    (h : top addr y = some e) : e ∈ y := by
  induction y generalizing e with
  | nil => cases h
  | cons a es ih =>
    unfold top at h
    split at h
    · cases h; simp
    · rename_i m hm
      split at h
      · cases h; exact List.mem_cons_of_mem _ (ih hm)
      · cases h; simp

theorem top_le {addr : Nat → Nat} {y : List (Int × Nat)} {e : Int × Nat}
    (h : top addr y = some e) : ∀ a ∈ y, e.1 ≤ a.1 := by
  induction y generalizing e with
  | nil => cases h
  | cons b es ih =>
    intro a ha
    unfold top at h
    split at h
    · rename_i hn
      cases h
      have := top_eq_none hn
      subst this
      simp at ha
      subst ha
      exact le_refl _
    · rename_i m hm
      have hm' := ih hm
      split at h
      · rename_i hlt
        cases h
        rcases List.mem_cons.1 ha with rfl | ha
        · simp [pairLt] at hlt
          rcases hlt with hlt | ⟨hlt, _⟩ <;> omega
        · exact hm' a ha
      · rename_i hlt
        cases h
        simp [pairLt] at hlt
        rcases List.mem_cons.1 ha with rfl | ha
        · exact le_refl _
        · have := hm' a ha
          omega

theorem mem_setInsert {x : List Nat} {u v : Nat} : v ∈ setInsert x u ↔ v = u ∨ v ∈ x := by
  unfold setInsert
  by_cases h : u ∈ x
  · simp [h]
    intro hv; subst hv; exact h
  · simp [h]

theorem relax_of_some {u : Nat} {s : State} {n : Int × Nat} {k : Int} (h : s.d u = some k) :
    relax u s n =
      if n.2 ∈ s.x then s
      else if dist s.d n.2 > wrap (k + n.1) then
        { s with d := assign s.d n.2 (wrap (k + n.1)), parent := assign s.parent n.2 u,
                 y := (wrap (k + n.1), n.2) :: s.y }
      else s := by
  unfold relax
  simp only [touch_of_some h, readAt_of_some h]

theorem settle_fresh {s : State} {e : Int × Nat} (h : e.2 ∉ s.x) :
    settle s e = { s with y := s.y.erase e, x := e.2 :: s.x } := by
  simp [settle, setInsert, h]

theorem settle_stale {s : State} {e : Int × Nat} (h : e.2 ∈ s.x) :
    settle s e = { s with y := s.y.erase e } := by
  simp [settle, setInsert, h]

theorem neiAt_of_le {g : Graph} {i : Nat} (h : g.length ≤ i) : neiAt g i = [] := by
  unfold neiAt
  rw [List.getElem?_eq_none h]

/-! ## Sums over the nodes of a graph -/

theorem sum_map_le_range (f : Nat → Nat) (n : Nat) (hf : ∀ i, n ≤ i → f i = 0)
    {x : List Nat} (hx : x.Nodup) : (x.map f).sum ≤ ((List.range n).map f).sum := by
  have h1 : (x.map f).sum = ∑ i in x.toFinset, f i := by
    rw [List.sum_toFinset f hx]
  have h2 : ((List.range n).map f).sum = ∑ i in Finset.range n, f i := by
    rw [← List.sum_toFinset f (List.nodup_range n)]
    congr 1
    ext i
    simp
  rw [h1, h2]
  have h3 : ∑ i in Finset.range n, f i = ∑ i in Finset.range n ∪ x.toFinset, f i := by
    apply Finset.sum_subset Finset.subset_union_left
    intro i _ hi
    apply hf
    simpa using hi
  rw [h3]
  exact Finset.sum_le_sum_of_subset Finset.subset_union_right

theorem sum_map_le_range_int (f : Nat → Int) (n : Nat) (hf : ∀ i, n ≤ i → f i = 0)
    (hpos : ∀ i, 0 ≤ f i) {x : List Nat} (hx : x.Nodup) :
    (x.map f).sum ≤ ((List.range n).map f).sum := by
  have h1 : (x.map f).sum = ∑ i in x.toFinset, f i := by
    rw [List.sum_toFinset f hx]
  have h2 : ((List.range n).map f).sum = ∑ i in Finset.range n, f i := by
    rw [← List.sum_toFinset f (List.nodup_range n)]
    congr 1
    ext i
    simp
  rw [h1, h2]
  have h3 : ∑ i in Finset.range n, f i = ∑ i in Finset.range n ∪ x.toFinset, f i := by
    apply Finset.sum_subset Finset.subset_union_left
    intro i _ hi
    apply hf
    simpa using hi
  rw [h3]
  exact Finset.sum_le_sum_of_subset_of_nonneg Finset.subset_union_right (fun i _ _ => hpos i)

theorem degSum_le {g : Graph} {x : List Nat} (hx : x.Nodup) : degSum g x ≤ numEdges g := by
  unfold numEdges degSum
  apply sum_map_le_range _ _ _ hx
  intro i hi
  simp [neiAt_of_le hi]

theorem nonneg_of_mem {g : Graph} (h : NonNeg g) {u : Nat} {n : Int × Nat}
    (hn : n ∈ neiAt g u) : 0 ≤ n.1 := by
  unfold neiAt at hn
  cases hg : g[u]? with
  | none => simp [hg] at hn
  | some nd =>
    simp only [hg] at hn
    exact h nd (List.getElem?_mem hg) n hn

theorem out_nonneg {g : Graph} (h : NonNeg g) (u : Nat) :
    0 ≤ ((neiAt g u).map Prod.fst).sum := by
  apply List.sum_nonneg
  intro w hw
  obtain ⟨n, hn, rfl⟩ := List.mem_map.1 hw
  exact nonneg_of_mem h hn

theorem le_out {g : Graph} (h : NonNeg g) {u : Nat} {n : Int × Nat} (hn : n ∈ neiAt g u) :
    n.1 ≤ ((neiAt g u).map Prod.fst).sum := by
  apply List.single_le_sum
  · intro w hw
    obtain ⟨m, hm, rfl⟩ := List.mem_map.1 hw
    exact nonneg_of_mem h hm
  · exact List.mem_map.2 ⟨n, hn, rfl⟩

theorem weightSum_le {g : Graph} (h : NonNeg g) {x : List Nat} (hx : x.Nodup) :
    weightSum g x ≤ totalWeight g := by
  unfold totalWeight weightSum
  apply sum_map_le_range_int _ _ _ (out_nonneg h) hx
  intro i hi
  simp [neiAt_of_le hi]

theorem weightSum_cons (g : Graph) (u : Nat) (x : List Nat) :
    weightSum g (u :: x) = ((neiAt g u).map Prod.fst).sum + weightSum g x := by
  simp [weightSum]

/-! ## Walks and lightest edges -/

theorem walk_nonneg {g : Graph} (h : NonNeg g) {a b : Nat} {W : Int} (hw : Walk g a b W) :
    0 ≤ W := by
  induction hw with
  | nil => exact le_refl _
  | snoc _ he ih => have := nonneg_of_mem h he; omega

/-- A walk that starts inside a set of nodes and ends outside leaves the set by some edge. -/
theorem walk_cross {g : Graph} (h : NonNeg g) {X : List Nat} {a b : Nat} {W : Int}
    (hw : Walk g a b W) (ha : a ∈ X) (hb : b ∉ X) :
    ∃ p q w W1, Walk g a p W1 ∧ p ∈ X ∧ q ∉ X ∧ (w, q) ∈ neiAt g p ∧ W1 + w ≤ W := by
  induction hw with
  | nil => exact absurd ha hb
  | @snoc b c W w hw' he ih =>
    by_cases hbX : b ∈ X
    · exact ⟨b, c, w, W, hw', hbX, hb, he, le_refl _⟩
    · obtain ⟨p, q, w1, W1, h1, h2, h3, h4, h5⟩ := ih hbX
      have := nonneg_of_mem h he
      exact ⟨p, q, w1, W1, h1, h2, h3, h4, by simp at this ⊢; omega⟩

theorem walk_stays {g : Graph} {a : Nat} (h : neiAt g a = []) {b : Nat} {W : Int}
    (hw : Walk g a b W) : b = a := by
  induction hw with
  | nil => rfl
  | snoc _ he ih =>
    rw [ih, h] at he
    cases he

theorem lightest_some {b : Nat} {l : List (Int × Nat)} {w : Int} (hw : (w, b) ∈ l) :
    ∃ m, lightest b l = some m ∧ (m, b) ∈ l ∧ ∀ w', (w', b) ∈ l → m ≤ w' := by
  induction l generalizing w with
  | nil => cases hw
  | cons n ns ih =>
    unfold lightest
    by_cases hn : n.2 = b
    · rw [if_pos hn]
      by_cases hex : ∃ w1, (w1, b) ∈ ns
      · obtain ⟨w1, hw1⟩ := hex
        obtain ⟨m, h1, h2, h3⟩ := ih hw1
        rw [h1]
        refine ⟨min n.1 m, rfl, ?_, ?_⟩
        · rcases le_total n.1 m with hle | hle
          · rw [min_eq_left hle]
            exact List.mem_cons.2 (Or.inl (by rw [← hn]))
          · rw [min_eq_right hle]
            exact List.mem_cons_of_mem _ h2
        · intro w' hw'
          rcases List.mem_cons.1 hw' with h4 | h4
          · rw [← h4]; exact min_le_left _ _
          · exact le_trans (min_le_right _ _) (h3 w' h4)
      · have hnone : lightest b ns = none := by
          cases hl : lightest b ns with
          | none => rfl
          | some m =>
            exfalso
            clear ih hw
            induction ns with
            | nil => simp [lightest] at hl
            | cons a as ih2 =>
              unfold lightest at hl
              by_cases ha : a.2 = b
              · exact hex ⟨a.1, List.mem_cons.2 (Or.inl (by rw [← ha]))⟩
              · rw [if_neg ha] at hl
                exact ih2 (fun ⟨w1, h1⟩ => hex ⟨w1, List.mem_cons_of_mem _ h1⟩) hl
        rw [hnone]
        refine ⟨n.1, rfl, List.mem_cons.2 (Or.inl (by rw [← hn])), ?_⟩
        intro w' hw'
        rcases List.mem_cons.1 hw' with h4 | h4
        · rw [← h4]
        · exact absurd ⟨w', h4⟩ hex
    · rw [if_neg hn]
      have hw2 : (w, b) ∈ ns := by
        rcases List.mem_cons.1 hw with h4 | h4
        · exact absurd (by rw [← h4]) hn
        · exact h4
      obtain ⟨m, h1, h2, h3⟩ := ih hw2
      refine ⟨m, h1, List.mem_cons_of_mem _ h2, ?_⟩
      intro w' hw'
      rcases List.mem_cons.1 hw' with h4 | h4
      · exact absurd (by rw [← h4]) hn
      · exact h3 w' h4

/-! ## The invariant for arbitrary weights -/

theorem inv_init (g : Graph) (src target u : Nat) : Inv g src target 0 u [] (init src) where
  x_nodup := by simp [init]
  d_src := by simp [init, assign]
  par_src := by simp [init, assign]
  tgt := by simp [init]
  y_d := by simp [init, assign]
  x_d := by simp [init]
  d_par := by
    intro v k h
    by_cases hv : v = src <;> simp [init, assign, hv] at h ⊢
  conn := by
    intro v k h
    by_cases hv : v = src
    · subst hv; exact ⟨0, Walk.nil⟩
    · simp [init, assign, hv] at h
  par := by
    intro v p h hv
    simp [init, assign, hv] at h
  relaxed := by simp [init]
  start := by simp [init]
  pend_sub := by simp
  x_len := by simp [init]
  cnt := by simp [init]

theorem Inv.change_node {g : Graph} {src target t u : Nat} {s : State}
    (h : Inv g src target t u [] s) (u' : Nat) : Inv g src target t u' [] s where
  x_nodup := h.x_nodup
  d_src := h.d_src
  par_src := h.par_src
  tgt := h.tgt
  y_d := h.y_d
  x_d := h.x_d
  d_par := h.d_par
  conn := h.conn
  par := h.par
  relaxed := by
    intro a ha n hn
    rcases h.relaxed a ha n hn with ⟨_, h1⟩ | h1
    · simp at h1
    · exact Or.inr h1
  start := h.start
  pend_sub := by simp
  x_len := h.x_len
  cnt := h.cnt

theorem inv_settle_fresh {g : Graph} {src target t u : Nat} {s : State} {e : Int × Nat}
    (h : Inv g src target t u [] s) (he : e ∈ s.y) (hx : e.2 ∉ s.x) (ht : target ≠ e.2) :
    Inv g src target (t + 1) e.2 (neiAt g e.2) (settle s e) := by
  rw [settle_fresh hx]
  refine
    { x_nodup := ?_, d_src := h.d_src, par_src := h.par_src, tgt := ?_, y_d := ?_, x_d := ?_,
      d_par := h.d_par, conn := h.conn, par := ?_, relaxed := ?_, start := ?_, pend_sub := ?_,
      x_len := ?_, cnt := ?_ }
  · exact List.nodup_cons.2 ⟨hx, h.x_nodup⟩
  · intro hmem
    rcases List.mem_cons.1 hmem with h1 | h1
    · exact ht h1
    · exact h.tgt h1
  · intro a ha
    exact h.y_d a (List.mem_of_mem_erase ha)
  · intro v hv
    rcases List.mem_cons.1 hv with rfl | h1
    · exact h.y_d e he
    · exact h.x_d v h1
  · intro v p hp hv
    obtain ⟨h1, h2, h3⟩ := h.par v p hp hv
    refine ⟨List.mem_cons_of_mem _ h1, h2, ?_⟩
    intro l1 l2 hl
    cases l1 with
    | nil =>
      simp only [List.nil_append, List.cons.injEq] at hl
      rw [← hl.2]; exact h1
    | cons b l1 =>
      simp only [List.cons_append, List.cons.injEq] at hl
      exact h3 l1 l2 hl.2
  · intro a ha n hn
    rcases List.mem_cons.1 ha with rfl | h1
    · exact Or.inl ⟨rfl, hn⟩
    · rcases h.relaxed a h1 n hn with ⟨_, h2⟩ | h2 | h2
      · simp at h2
      · exact Or.inr (Or.inl (List.mem_cons_of_mem _ h2))
      · exact Or.inr (Or.inr h2)
  · left
    rcases h.start with h1 | ⟨_, h2, _⟩
    · exact List.mem_cons_of_mem _ h1
    · rw [h2] at he
      simp at he
      simp [he]
  · intro n hn
    exact ⟨hn, List.mem_cons_self _ _⟩
  · have := h.x_len
    simp only [List.length_cons]
    omega
  · have h1 := h.cnt
    have h2 := List.length_erase_of_mem he
    have h3 : 0 < s.y.length := List.length_pos_of_mem he
    simp only [degSum, List.map_cons, List.sum_cons, List.length_nil] at h1 ⊢
    omega

theorem inv_relax {g : Graph} {src target t u : Nat} {s : State} {n : Int × Nat}
    {rest : List (Int × Nat)} (h : Inv g src target t u (n :: rest) s) :
    Inv g src target t u rest (relax u s n) := by
  obtain ⟨hn, hu⟩ := h.pend_sub n (List.mem_cons_self _ _)
  obtain ⟨k, hk⟩ := h.x_d u hu
  have hsrc : src ∈ s.x := by
    rcases h.start with h1 | ⟨_, _, h1⟩
    · exact h1
    · cases h1
  have hcnt := h.cnt
  simp only [List.length_cons] at hcnt
  -- the invariant when the state is left as it is
  have same : (n.2 ∈ s.x ∨ dist s.d n.2 ≤ wrap (k + n.1)) → Inv g src target t u rest s := by
    intro hcase
    refine
      { x_nodup := h.x_nodup, d_src := h.d_src, par_src := h.par_src, tgt := h.tgt, y_d := h.y_d,
        x_d := h.x_d, d_par := h.d_par, conn := h.conn, par := h.par, relaxed := ?_,
        start := Or.inl hsrc, pend_sub := ?_, x_len := h.x_len, cnt := by omega }
    · intro a ha m hm
      rcases h.relaxed a ha m hm with ⟨h1, h2⟩ | h2
      · rcases List.mem_cons.1 h2 with rfl | h3
        · subst h1
          rcases hcase with h4 | h4
          · exact Or.inr (Or.inl h4)
          · right; right
            rw [readAt_of_some hk]; exact h4
        · exact Or.inl ⟨h1, h3⟩
      · exact Or.inr h2
    · intro m hm
      exact h.pend_sub m (List.mem_cons_of_mem _ hm)
  rw [relax_of_some hk]
  by_cases hx : n.2 ∈ s.x
  · rw [if_pos hx]; exact same (Or.inl hx)
  rw [if_neg hx]
  by_cases hlt : dist s.d n.2 > wrap (k + n.1)
  swap
  · rw [if_neg hlt]; exact same (Or.inr (not_lt.1 hlt))
  rw [if_pos hlt]
  have hne : ∀ a ∈ s.x, a ≠ n.2 := fun a ha hEq => hx (hEq ▸ ha)
  refine
    { x_nodup := h.x_nodup, d_src := ?_, par_src := ?_, tgt := h.tgt, y_d := ?_, x_d := ?_,
      d_par := ?_, conn := ?_, par := ?_, relaxed := ?_, start := Or.inl hsrc, pend_sub := ?_,
      x_len := h.x_len, cnt := ?_ }
  · simp only [assign, if_neg (hne src hsrc)]; exact h.d_src
  · simp only [assign, if_neg (hne src hsrc)]; exact h.par_src
  · intro a ha
    by_cases hv : a.2 = n.2
    · exact ⟨wrap (k + n.1), by simp [assign, hv]⟩
    · rcases List.mem_cons.1 ha with rfl | h1
      · exact absurd rfl hv
      · simpa [assign, hv] using h.y_d a h1
  · intro v hv
    simpa [assign, hne v hv] using h.x_d v hv
  · intro v k' hv
    by_cases hvn : v = n.2
    · exact ⟨u, by simp [assign, hvn]⟩
    · simp only [assign, if_neg hvn] at hv ⊢
      exact h.d_par v k' hv
  · intro v k' hv
    by_cases hvn : v = n.2
    · obtain ⟨W, hW⟩ := h.conn u k hk
      exact ⟨W + n.1, by rw [hvn]; exact Walk.snoc hW hn⟩
    · simp only [assign, if_neg hvn] at hv
      exact h.conn v k' hv
  · intro v p hp hv
    by_cases hvn : v = n.2
    · simp only [assign, if_pos hvn, Option.some.injEq] at hp
      subst hp
      refine ⟨hu, ⟨n.1, by rw [hvn]; exact hn⟩, ?_⟩
      intro l1 l2 hl
      exfalso
      apply hx
      rw [← hvn]
      show v ∈ s.x
      rw [hl]; simp
    · simp only [assign, if_neg hvn] at hp
      exact h.par v p hp hv
  · intro a ha m hm
    have hda : readAt (assign s.d n.2 (wrap (k + n.1))) a 0 = readAt s.d a 0 := by
      simp [readAt, assign, hne a ha]
    show _ ∨ _ ∨ dist (assign s.d n.2 (wrap (k + n.1))) m.2 ≤
      wrap (readAt (assign s.d n.2 (wrap (k + n.1))) a 0 + m.1)
    rw [hda]
    have hmono := dist_assign_le (le_of_lt hlt) m.2
    rcases h.relaxed a ha m hm with ⟨h1, h2⟩ | h2 | h2
    · rcases List.mem_cons.1 h2 with rfl | h3
      · subst h1
        right; right
        rw [readAt_of_some hk]
        simp [dist, assign]
      · exact Or.inl ⟨h1, h3⟩
    · exact Or.inr (Or.inl h2)
    · exact Or.inr (Or.inr (le_trans hmono h2))
  · intro m hm
    exact h.pend_sub m (List.mem_cons_of_mem _ hm)
  · simp only [List.length_cons]
    omega

theorem inv_fold {g : Graph} {src target t u : Nat} (pend : List (Int × Nat)) {s : State}
    (h : Inv g src target t u pend s) : Inv g src target t u [] (pend.foldl (relax u) s) := by
  induction pend generalizing s with
  | nil => exact h
  | cons n rest ih => exact ih (inv_relax h)

/-- Relaxing edges that are all relaxed already leaves the state as it is. -/
theorem fold_relaxed {u : Nat} {k : Int} (l : List (Int × Nat)) {s : State}
    (hk : s.d u = some k)
    (h : ∀ n ∈ l, n.2 ∈ s.x ∨ dist s.d n.2 ≤ wrap (k + n.1)) : l.foldl (relax u) s = s := by
  induction l with
  | nil => rfl
  | cons n rest ih =>
    have h1 : relax u s n = s := by
      rw [relax_of_some hk]
      rcases h n (List.mem_cons_self _ _) with h2 | h2
      · rw [if_pos h2]
      · by_cases hx : n.2 ∈ s.x
        · rw [if_pos hx]
        · rw [if_neg hx, if_neg (not_lt.2 h2)]
    rw [List.foldl_cons, h1]
    exact ih (fun m hm => h m (List.mem_cons_of_mem _ hm))

/-- Popping an entry whose node is black already only removes the entry. -/
theorem iter_stale {g : Graph} {src target t u : Nat} {s : State} {e : Int × Nat}
    (h : Inv g src target t u [] s) (hx : e.2 ∈ s.x) :
    iter g s e = { s with y := s.y.erase e } := by
  obtain ⟨k, hk⟩ := h.x_d e.2 hx
  unfold iter
  rw [settle_stale hx]
  refine fold_relaxed (neiAt g e.2) (s := { s with y := s.y.erase e }) (k := k) hk ?_
  intro n hn
  rcases h.relaxed e.2 hx n hn with ⟨_, h1⟩ | h1 | h1
  · simp at h1
  · exact Or.inl h1
  · right
    rw [readAt_of_some hk] at h1
    exact h1

theorem inv_stale {g : Graph} {src target t u : Nat} {s : State} {e : Int × Nat}
    (h : Inv g src target t u [] s) (he : e ∈ s.y) (hx : e.2 ∈ s.x) :
    Inv g src target (t + 1) u [] { s with y := s.y.erase e } := by
  refine
    { x_nodup := h.x_nodup, d_src := h.d_src, par_src := h.par_src, tgt := h.tgt, y_d := ?_,
      x_d := h.x_d, d_par := h.d_par, conn := h.conn, par := h.par, relaxed := h.relaxed,
      start := ?_, pend_sub := by simp, x_len := ?_, cnt := ?_ }
  · intro a ha
    exact h.y_d a (List.mem_of_mem_erase ha)
  · left
    rcases h.start with h1 | ⟨h1, _, _⟩
    · exact h1
    · rw [h1] at hx; simp at hx
  · have := h.x_len
    show s.x.length ≤ t + 1
    omega
  · have h1 := h.cnt
    have h2 := List.length_erase_of_mem he
    have h3 : 0 < s.y.length := List.length_pos_of_mem he
    show t + 1 + (s.y.erase e).length + 0 ≤ 1 + degSum g s.x
    simp only [List.length_nil] at h1
    omega

theorem inv_iter {g : Graph} {src target t u : Nat} {s : State} {e : Int × Nat}
    (h : Inv g src target t u [] s) (he : e ∈ s.y) (ht : target ≠ e.2) :
    Inv g src target (t + 1) u [] (iter g s e) := by
  by_cases hx : e.2 ∈ s.x
  · rw [iter_stale h hx]; exact inv_stale h he hx
  · exact (inv_fold _ (inv_settle_fresh h he hx ht)).change_node u

theorem inv_of_reach {g : Graph} {addr : Nat → Nat} {src target t : Nat} {s : State}
    (h : Reach g addr src target t s) : Inv g src target t 0 [] s := by
  induction h with
  | start => exact inv_init g src target 0
  | step _ he ht ih => exact inv_iter ih (top_mem he) ht

/-! ## The reconstruction of the path -/

/-- Shape of a reconstructed list: it extends the list built so far at the front by a chain
of `parent` links that starts at `src`. -/
theorem rebuild_shape {parent : Nat → Option Nat} {src : Nat} :
    ∀ (fuel u : Nat) (acc p : List Nat), rebuild parent src fuel u acc = some p →
      ∃ pre, p = pre ++ u :: acc ∧
        List.Chain' (fun a b => parent b = some a ∧ b ≠ src) (pre ++ [u]) ∧
        (pre ++ [u]).head? = some src := by
  intro fuel
  induction fuel with
  | zero =>
    intro u acc p h
    unfold rebuild at h
    by_cases hu : u = src
    · rw [if_pos hu] at h
      cases h
      exact ⟨[], by simp [hu], by simp, by simp [hu]⟩
    · rw [if_neg hu] at h; cases h
  | succ fuel ih =>
    intro u acc p h
    unfold rebuild at h
    by_cases hu : u = src
    · rw [if_pos hu] at h
      cases h
      exact ⟨[], by simp [hu], by simp, by simp [hu]⟩
    · rw [if_neg hu] at h
      cases hq : parent u with
      | none => rw [hq] at h; cases h
      | some q =>
        rw [hq] at h
        obtain ⟨pre, h1, h2, h3⟩ := ih q (u :: acc) p h
        refine ⟨pre ++ [q], by simp [h1], ?_, ?_⟩
        · apply List.Chain'.append h2 (List.chain'_singleton u)
          intro a ha b hb
          simp at ha hb
          subst ha hb
          exact ⟨hq, hu⟩
        · rw [List.head?_append_of_ne_nil _ (by simp)]
          exact h3

theorem rebuild_mono {parent : Nat → Option Nat} {src : Nat} :
    ∀ (f f' u : Nat) (acc p : List Nat), f ≤ f' → rebuild parent src f u acc = some p →
      rebuild parent src f' u acc = some p := by
  intro f
  induction f with
  | zero =>
    intro f' u acc p _ h
    unfold rebuild at h
    by_cases hu : u = src
    · rw [if_pos hu] at h
      cases f' <;> simp [rebuild, hu, h]
    · rw [if_neg hu] at h; cases h
  | succ f ih =>
    intro f' u acc p hf h
    obtain ⟨f2, rfl⟩ : ∃ f2, f' = f2 + 1 := ⟨f' - 1, by omega⟩
    unfold rebuild at h ⊢
    by_cases hu : u = src
    · rw [if_pos hu] at h ⊢; exact h
    · rw [if_neg hu] at h ⊢
      cases hq : parent u with
      | none => rw [hq] at h; cases h
      | some q =>
        rw [hq] at h
        exact ih f2 q (u :: acc) p (by omega) h

/-- A black node is linked to `src` by fewer `parent` links than there are black nodes. -/
theorem rebuild_black {g : Graph} {src target t u : Nat} {s : State}
    (h : Inv g src target t u [] s) :
    ∀ (l2 l1 : List Nat), s.x = l1 ++ l2 → ∀ v ∈ l2, ∀ fuel, l2.length ≤ fuel →
      ∀ acc, ∃ p, rebuild s.parent src fuel v acc = some p := by
  intro l2
  induction l2 with
  | nil => intro l1 _ v hv; cases hv
  | cons a l2 ih =>
    intro l1 hl v hv fuel hfuel acc
    have hl' : s.x = (l1 ++ [a]) ++ l2 := by simp [hl]
    simp only [List.length_cons] at hfuel
    rcases List.mem_cons.1 hv with rfl | hv'
    · by_cases hsrc : v = src
      · cases fuel <;> exact ⟨src :: acc, by simp [rebuild, hsrc]⟩
      · obtain ⟨f, rfl⟩ : ∃ f, fuel = f + 1 := ⟨fuel - 1, by omega⟩
        have hvx : v ∈ s.x := by rw [hl]; simp
        obtain ⟨k, hk⟩ := h.x_d v hvx
        obtain ⟨q, hq⟩ := h.d_par v k hk
        have hq2 := (h.par v q hq hsrc).2.2 l1 l2 hl
        obtain ⟨p, hp⟩ := ih (l1 ++ [v]) hl' q hq2 f (by omega) (v :: acc)
        exact ⟨p, by simp [rebuild, hsrc, hq, hp]⟩
    · exact ih (l1 ++ [a]) hl' v hv' fuel (by omega) acc

theorem rebuild_total {g : Graph} {src target t u : Nat} {s : State}
    (h : Inv g src target t u [] s) {v : Nat} {k : Int} (hv : s.d v = some k) (fuel : Nat)
    (hfuel : s.x.length + 1 ≤ fuel) (acc : List Nat) :
    ∃ p, rebuild s.parent src fuel v acc = some p := by
  by_cases hsrc : v = src
  · cases fuel <;> exact ⟨src :: acc, by simp [rebuild, hsrc]⟩
  · obtain ⟨f, rfl⟩ : ∃ f, fuel = f + 1 := ⟨fuel - 1, by omega⟩
    obtain ⟨q, hq⟩ := h.d_par v k hv
    have hq2 := (h.par v q hq hsrc).1
    obtain ⟨p, hp⟩ := rebuild_black h s.x [] (by simp) q hq2 f (by omega) (v :: acc)
    exact ⟨p, by simp [rebuild, hsrc, hq, hp]⟩

/-- The list rebuilt in a state that satisfies the invariant is a walk from `src`. -/
theorem rebuild_walk {g : Graph} {src target t u : Nat} {s : State}
    (h : Inv g src target t u [] s) {f v : Nat} {p : List Nat}
    (hp : rebuild s.parent src f v [] = some p) :
    p.head? = some src ∧ p.getLast? = some v ∧ List.Chain' (Edge g) p := by
  obtain ⟨pre, h1, h2, h3⟩ := rebuild_shape f v [] p hp
  subst h1
  refine ⟨h3, by simp, ?_⟩
  apply List.Chain'.imp _ h2
  intro a b hab
  exact (h.par b a hab.1 hab.2).2.1

/-! ## Termination and the result of the main loop -/

theorem loop_total {g : Graph} {addr : Nat → Nat} {src target : Nat} :
    ∀ (fuel t : Nat) (s : State), Inv g src target t 0 [] s → enough g ≤ fuel + t →
      ∃ r, loop g addr src target fuel s = some r := by
  intro fuel
  induction fuel with
  | zero =>
    intro t s h hf
    have h1 := h.cnt
    have h2 := degSum_le (g := g) h.x_nodup
    unfold enough at hf
    omega
  | succ fuel ih =>
    intro t s h hf
    unfold loop
    cases he : top addr s.y with
    | none => exact ⟨_, rfl⟩
    | some e =>
      have hmem := top_mem he
      by_cases ht : target = e.2
      · simp only [if_pos ht]
        obtain ⟨k, hk⟩ := h.y_d e hmem
        have h1 := h.cnt
        have h2 := degSum_le (g := g) h.x_nodup
        have h3 : 0 < s.y.length := List.length_pos_of_mem hmem
        have h4 := h.x_len
        unfold enough at hf
        obtain ⟨p, hp⟩ := rebuild_total h hk fuel (by omega) []
        exact ⟨_, by rw [hp]; rfl⟩
      · simp only [if_neg ht]
        exact ih (t + 1) _ (inv_iter h hmem ht) (by omega)

theorem run_total (g : Graph) (addr : Nat → Nat) (src target : Nat) {fuel : Nat}
    (hf : enough g ≤ fuel) : ∃ r, run g addr src target fuel = some r :=
  loop_total fuel 0 _ (inv_init g src target 0) (by omega)

/-- What the loop returns: a reachable state; with an empty frontier when no list is
written, and otherwise with `target` on top of the frontier and the list rebuilt by
following the `parent` links of that state. -/
theorem loop_spec {g : Graph} {addr : Nat → Nat} {src target : Nat} :
    ∀ (fuel t : Nat) (s s' : State) (r : Option (List Nat)),
      Reach g addr src target t s → loop g addr src target fuel s = some (s', r) →
      (∃ t', Reach g addr src target t' s') ∧
      (r = none → s'.y = []) ∧
      (∀ p, r = some p → (∃ e, top addr s'.y = some e ∧ e.2 = target) ∧
        ∃ f, rebuild s'.parent src f target [] = some p) := by
  intro fuel
  induction fuel with
  | zero => intro t s s' r _ h; simp [loop] at h
  | succ fuel ih =>
    intro t s s' r hr h
    unfold loop at h
    cases he : top addr s.y with
    | none =>
      simp only [he, Option.some.injEq, Prod.mk.injEq] at h
      obtain ⟨rfl, rfl⟩ := h
      exact ⟨⟨t, hr⟩, fun _ => top_eq_none he, fun p hp => (by cases hp)⟩
    | some e =>
      simp only [he] at h
      by_cases ht : target = e.2
      · simp only [if_pos ht] at h
        cases hp : rebuild s.parent src fuel e.2 [] with
        | none => simp [hp] at h
        | some p =>
          simp only [hp, Option.map_some', Option.some.injEq, Prod.mk.injEq] at h
          obtain ⟨rfl, rfl⟩ := h
          refine ⟨⟨t, hr⟩, fun h0 => (by cases h0), fun p' hp' => ?_⟩
          cases hp'
          exact ⟨⟨e, he, ht.symm⟩, fuel, by rw [ht]; exact hp⟩
      · simp only [if_neg ht] at h
        exact ih (t + 1) _ s' r (Reach.step hr he ht) h

theorem reach_loop {g : Graph} {addr : Nat → Nat} {src target t : Nat} {s : State}
    (h : Reach g addr src target t s) :
    ∀ fuel, run g addr src target (fuel + t) = loop g addr src target fuel s := by
  induction h with
  | start => intro fuel; rfl
  | @step t0 s0 e0 _ he ht ih =>
    intro fuel
    rw [show fuel + (t0 + 1) = (fuel + 1) + t0 by omega, ih (fuel + 1)]
    conv_lhs => unfold loop
    simp only [he, if_neg ht]

/-- A reachable state with `target` on top of the frontier is the state in which the call
returns, and the call returns a list. -/
theorem exit_run {g : Graph} {addr : Nat → Nat} {src target t : Nat} {s : State} {e : Int × Nat}
    (hr : Reach g addr src target t s) (he : top addr s.y = some e) (ht : e.2 = target) :
    ∃ p, ∀ fuel, enough g ≤ fuel → run g addr src target fuel = some (s, some p) := by
  have h := inv_of_reach hr
  have hmem := top_mem he
  obtain ⟨k, hk⟩ := h.y_d e hmem
  have h1 := h.cnt
  have h2 := degSum_le (g := g) h.x_nodup
  have h3 : 0 < s.y.length := List.length_pos_of_mem hmem
  have h4 := h.x_len
  obtain ⟨p, hp⟩ := rebuild_total h hk (s.x.length + 1) (le_refl _) []
  refine ⟨p, ?_⟩
  intro fuel hf
  unfold enough at hf
  obtain ⟨f, rfl⟩ : ∃ f, fuel = (f + 1) + t := ⟨fuel - t - 1, by omega⟩
  rw [reach_loop hr (f + 1)]
  unfold loop
  simp only [he, if_pos ht.symm]
  rw [rebuild_mono (s.x.length + 1) f e.2 [] p (by omega) hp]
  rfl

/-- A call that writes a list left the loop in a reachable state with `target` on top. -/
theorem run_exit {g : Graph} {addr : Nat → Nat} {src target fuel : Nat} {s : State}
    {p : List Nat} (h : run g addr src target fuel = some (s, some p)) :
    ∃ t e f, Reach g addr src target t s ∧ top addr s.y = some e ∧ e.2 = target ∧
      rebuild s.parent src f target [] = some p := by
  obtain ⟨⟨t, h1⟩, _, h3⟩ := loop_spec fuel 0 (init src) s (some p) Reach.start h
  obtain ⟨⟨e, he, ht⟩, f, hf⟩ := h3 p rfl
  exact ⟨t, e, f, h1, he, ht, hf⟩

theorem loop_eq_loopSkip {g : Graph} {addr : Nat → Nat} {src target : Nat} :
    ∀ (fuel t : Nat) (s : State), Inv g src target t 0 [] s →
      loop g addr src target fuel s = loopSkip g addr src target fuel s := by
  intro fuel
  induction fuel with
  | zero => intro t s _; rfl
  | succ fuel ih =>
    intro t s h
    unfold loop loopSkip
    cases he : top addr s.y with
    | none => rfl
    | some e =>
      by_cases ht : target = e.2
      · simp only [if_pos ht]
      · simp only [if_neg ht]
        have hstep : iterSkip g s e = iter g s e := by
          unfold iterSkip
          by_cases hx : e.2 ∈ s.x
          · rw [if_pos hx, iter_stale h hx]
          · rw [if_neg hx]
        rw [hstep]
        exact ih (t + 1) _ (inv_iter h (top_mem he) ht)

/-- A call whose target is not connected to `src` leaves the loop with an empty frontier. -/
theorem run_unreachable {g : Graph} (addr : Nat → Nat) {src target : Nat}
    (hun : ¬ Reachable g src target) {fuel : Nat} (hf : enough g ≤ fuel) :
    ∃ s, run g addr src target fuel = some (s, none) ∧ s.y = [] := by
  obtain ⟨⟨s, r⟩, hrun⟩ := run_total g addr src target hf
  obtain ⟨⟨t, hr⟩, h2, h3⟩ := loop_spec fuel 0 (init src) s r Reach.start hrun
  cases r with
  | none => exact ⟨s, hrun, h2 rfl⟩
  | some p =>
    exfalso
    obtain ⟨⟨e, he, ht⟩, _⟩ := h3 p rfl
    obtain ⟨k, hk⟩ := (inv_of_reach hr).y_d e (top_mem he)
    rw [ht] at hk
    exact hun ((inv_of_reach hr).conn target k hk)

/-! ## The invariant for non-negative weights -/

theorem opt_init (g : Graph) (src : Nat) : Opt g src (init src) where
  ach := by
    intro v k h
    by_cases hv : v = src
    · subst hv
      simp [init, assign] at h
      subst h
      exact Walk.nil
    · simp [init, assign, hv] at h
  opt := by simp [init]
  front := by
    intro v k h _
    by_cases hv : v = src
    · subst hv
      simp [init, assign] at h
      simp [init, h]
    · simp [init, assign, hv] at h
  ykey := by simp [init, assign]
  bound := by
    intro v k h
    by_cases hv : v = src
    · simp [init, assign, hv] at h
      simp [init, weightSum, ← h]
    · simp [init, assign, hv] at h
  bound_x := by simp [init]
  pd := by
    intro v p h hv
    simp [init, assign, hv] at h

/-- Without overflow the edges out of black nodes are relaxed in the plain sense. -/
theorem relaxed_plain {g : Graph} {src target t u : Nat} {pend : List (Int × Nat)} {s : State}
    (hnn : NonNeg g) (htot : totalWeight g < INT_MAX)
    (h : Inv g src target t u pend s) (ho : Opt g src s)
    {a : Nat} (ha : a ∈ s.x) {n : Int × Nat} (hn : n ∈ neiAt g a) :
    (a = u ∧ n ∈ pend) ∨ n.2 ∈ s.x ∨
      ∃ ka kv, s.d a = some ka ∧ s.d n.2 = some kv ∧ kv ≤ ka + n.1 := by
  rcases h.relaxed a ha n hn with h1 | h1 | h1
  · exact Or.inl h1
  · exact Or.inr (Or.inl h1)
  · right; right
    obtain ⟨ka, hka⟩ := h.x_d a ha
    have h2 := ho.bound_x a ha n hn ka hka
    have h3 := weightSum_le hnn h.x_nodup
    have h4 := walk_nonneg hnn (ho.ach a ka hka)
    have h5 := nonneg_of_mem hnn hn
    rw [readAt_of_some hka, wrap_of_range (by omega) (by unfold INT_MAX at htot; omega)] at h1
    cases hv : s.d n.2 with
    | none =>
      rw [dist_le_max_of_none hv] at h1
      omega
    | some kv =>
      rw [dist_of_some hv] at h1
      exact ⟨ka, kv, hka, rfl, h1⟩

/-- The node on top of the frontier, when it is not black, carries its shortest distance. -/
theorem top_least {g : Graph} {addr : Nat → Nat} {src target t u : Nat} {s : State}
    {e : Int × Nat} (hnn : NonNeg g) (htot : totalWeight g < INT_MAX)
    (h : Inv g src target t u [] s) (ho : Opt g src s)
    (he : top addr s.y = some e) (hx : e.2 ∉ s.x) :
    s.d e.2 = some e.1 ∧ ∀ k', Walk g src e.2 k' → e.1 ≤ k' := by
  obtain ⟨k, hk, hle⟩ := ho.ykey e (top_mem he)
  have hge := top_le he (k, e.2) (ho.front e.2 k hk hx)
  have hk1 : k = e.1 := le_antisymm hle hge
  subst hk1
  refine ⟨hk, ?_⟩
  intro k' hw
  by_cases hsrc : src ∈ s.x
  · obtain ⟨p, q, w, W1, h1, h2, h3, h4, h5⟩ := walk_cross hnn hw hsrc hx
    obtain ⟨kp, hkp⟩ := h.x_d p h2
    have h6 := ho.opt p h2 kp hkp W1 h1
    rcases relaxed_plain hnn htot h ho h2 h4 with ⟨_, h7⟩ | h7 | ⟨ka, kv, h7, h8, h9⟩
    · simp at h7
    · exact absurd h7 h3
    · rw [hkp] at h7
      cases h7
      have h10 := top_le he (kv, q) (ho.front q kv h8 h3)
      simp only at h10 h9
      omega
  · have h1 := top_le he (0, src) (ho.front src 0 h.d_src hsrc)
    have h2 := walk_nonneg hnn hw
    simp only at h1
    omega

theorem opt_settle_fresh {g : Graph} {addr : Nat → Nat} {src target t u : Nat} {s : State}
    {e : Int × Nat} (hnn : NonNeg g) (htot : totalWeight g < INT_MAX)
    (h : Inv g src target t u [] s) (ho : Opt g src s)
    (he : top addr s.y = some e) (hx : e.2 ∉ s.x) : Opt g src (settle s e) := by
  have htop := top_least hnn htot h ho he hx
  have hout := out_nonneg hnn e.2
  rw [settle_fresh hx]
  refine
    { ach := ho.ach, opt := ?_, front := ?_, ykey := ?_, bound := ?_, bound_x := ?_, pd := ho.pd }
  · intro v hv k hk k' hw
    rcases List.mem_cons.1 hv with rfl | hv'
    · rw [htop.1] at hk
      cases hk
      exact htop.2 k' hw
    · exact ho.opt v hv' k hk k' hw
  · intro v k hk hv
    have hv1 : v ≠ e.2 := fun hEq => hv (by rw [hEq]; exact List.mem_cons_self _ _)
    have hv2 : v ∉ s.x := fun hm => hv (List.mem_cons_of_mem _ hm)
    have hne : (k, v) ≠ e := fun hEq => hv1 (by rw [← hEq])
    exact (List.mem_erase_of_ne hne).2 (ho.front v k hk hv2)
  · intro a ha
    exact ho.ykey a (List.mem_of_mem_erase ha)
  · intro v k hk
    have := ho.bound v k hk
    show k ≤ weightSum g (e.2 :: s.x)
    rw [weightSum_cons]
    omega
  · intro a ha n hn k hk
    show k + n.1 ≤ weightSum g (e.2 :: s.x)
    rw [weightSum_cons]
    rcases List.mem_cons.1 ha with rfl | ha'
    · have h1 := ho.bound e.2 k hk
      have h2 := le_out hnn hn
      omega
    · have := ho.bound_x a ha' n hn k hk
      omega

theorem opt_relax {g : Graph} {src target t u : Nat} {s : State} {n : Int × Nat}
    {rest : List (Int × Nat)} (hnn : NonNeg g) (htot : totalWeight g < INT_MAX)
    (h : Inv g src target t u (n :: rest) s) (ho : Opt g src s) :
    Opt g src (relax u s n) := by
  obtain ⟨hn, hu⟩ := h.pend_sub n (List.mem_cons_self _ _)
  obtain ⟨k, hk⟩ := h.x_d u hu
  rw [relax_of_some hk]
  by_cases hx : n.2 ∈ s.x
  · rw [if_pos hx]; exact ho
  rw [if_neg hx]
  by_cases hlt : dist s.d n.2 > wrap (k + n.1)
  swap
  · rw [if_neg hlt]; exact ho
  rw [if_pos hlt]
  have hne : ∀ a ∈ s.x, a ≠ n.2 := fun a ha hEq => hx (hEq ▸ ha)
  have h2 := ho.bound_x u hu n hn k hk
  have h3 := weightSum_le hnn h.x_nodup
  have h4 := walk_nonneg hnn (ho.ach u k hk)
  have h5 := nonneg_of_mem hnn hn
  have hw : wrap (k + n.1) = k + n.1 :=
    wrap_of_range (by omega) (by unfold INT_MAX at htot; omega)
  rw [hw] at hlt ⊢
  refine
    { ach := ?_, opt := ?_, front := ?_, ykey := ?_, bound := ?_, bound_x := ?_, pd := ?_ }
  · intro v k' hv
    by_cases hvn : v = n.2
    · simp only [assign, if_pos hvn, Option.some.injEq] at hv
      subst hv
      rw [hvn]
      exact Walk.snoc (ho.ach u k hk) hn
    · simp only [assign, if_neg hvn] at hv
      exact ho.ach v k' hv
  · intro v hv k' hk' k'' hw'
    simp only [assign, if_neg (hne v hv)] at hk'
    exact ho.opt v hv k' hk' k'' hw'
  · intro v k' hv hvx
    by_cases hvn : v = n.2
    · simp only [assign, if_pos hvn, Option.some.injEq] at hv
      subst hv
      rw [hvn]
      exact List.mem_cons_self _ _
    · simp only [assign, if_neg hvn] at hv
      exact List.mem_cons_of_mem _ (ho.front v k' hv hvx)
  · intro a ha
    by_cases hvn : a.2 = n.2
    · refine ⟨k + n.1, by simp [assign, hvn], ?_⟩
      rcases List.mem_cons.1 ha with rfl | h1
      · exact le_refl _
      · obtain ⟨k0, hk0, hle⟩ := ho.ykey a h1
        rw [hvn] at hk0
        rw [dist_of_some hk0] at hlt
        omega
    · rcases List.mem_cons.1 ha with rfl | h1
      · exact absurd rfl hvn
      · simpa [assign, hvn] using ho.ykey a h1
  · intro v k' hv
    by_cases hvn : v = n.2
    · simp only [assign, if_pos hvn, Option.some.injEq] at hv
      subst hv
      exact h2
    · simp only [assign, if_neg hvn] at hv
      exact ho.bound v k' hv
  · intro a ha m hm k' hk'
    simp only [assign, if_neg (hne a ha)] at hk'
    exact ho.bound_x a ha m hm k' hk'
  · intro v p hp hv
    by_cases hvn : v = n.2
    · simp only [assign, if_pos hvn, Option.some.injEq] at hp
      subst hp
      refine ⟨n.1, k, by rw [hvn]; exact hn, ?_, ?_⟩
      · show assign s.d n.2 (k + n.1) u = some k
        simp only [assign, if_neg (hne u hu)]; exact hk
      · simp [assign, hvn]
    · simp only [assign, if_neg hvn] at hp
      obtain ⟨w, kp, h6, h7, h8⟩ := ho.pd v p hp hv
      have hpx := (h.par v p hp hv).1
      exact ⟨w, kp, h6, by simp only [assign, if_neg (hne p hpx)]; exact h7,
        by simp only [assign, if_neg hvn]; exact h8⟩

theorem opt_fold {g : Graph} {src target t u : Nat} (hnn : NonNeg g)
    (htot : totalWeight g < INT_MAX) (pend : List (Int × Nat)) {s : State}
    (h : Inv g src target t u pend s) (ho : Opt g src s) :
    Opt g src (pend.foldl (relax u) s) := by
  induction pend generalizing s with
  | nil => exact ho
  | cons n rest ih => exact ih (inv_relax h) (opt_relax hnn htot h ho)

theorem opt_stale {g : Graph} {src : Nat} {s : State} {e : Int × Nat}
    (ho : Opt g src s) (hx : e.2 ∈ s.x) : Opt g src { s with y := s.y.erase e } := by
  refine
    { ach := ho.ach, opt := ho.opt, front := ?_, ykey := ?_, bound := ho.bound,
      bound_x := ho.bound_x, pd := ho.pd }
  · intro v k hk hv
    have hne : (k, v) ≠ e := fun hEq => hv (by rw [← hEq] at hx; exact hx)
    exact (List.mem_erase_of_ne hne).2 (ho.front v k hk hv)
  · intro a ha
    exact ho.ykey a (List.mem_of_mem_erase ha)

theorem opt_iter {g : Graph} {addr : Nat → Nat} {src target t u : Nat} {s : State}
    {e : Int × Nat} (hnn : NonNeg g) (htot : totalWeight g < INT_MAX)
    (h : Inv g src target t u [] s) (ho : Opt g src s)
    (he : top addr s.y = some e) (ht : target ≠ e.2) : Opt g src (iter g s e) := by
  by_cases hx : e.2 ∈ s.x
  · rw [iter_stale h hx]; exact opt_stale ho hx
  · exact opt_fold hnn htot _ (inv_settle_fresh h (top_mem he) hx ht)
      (opt_settle_fresh hnn htot h ho he hx)

theorem opt_of_reach {g : Graph} {addr : Nat → Nat} {src target t : Nat} {s : State}
    (hnn : NonNeg g) (htot : totalWeight g < INT_MAX)
    (h : Reach g addr src target t s) : Opt g src s := by
  induction h with
  | start => exact opt_init g src
  | step hr he ht ih => exact opt_iter hnn htot (inv_of_reach hr) ih he ht

/-- Every edge out of a black node is relaxed, black end nodes included. -/
theorem edge_le {g : Graph} {src target t u : Nat} {s : State}
    (hnn : NonNeg g) (htot : totalWeight g < INT_MAX)
    (h : Inv g src target t u [] s) (ho : Opt g src s)
    {a : Nat} (ha : a ∈ s.x) {n : Int × Nat} (hn : n ∈ neiAt g a) {ka kb : Int}
    (hka : s.d a = some ka) (hkb : s.d n.2 = some kb) : kb ≤ ka + n.1 := by
  rcases relaxed_plain hnn htot h ho ha hn with ⟨_, h1⟩ | h1 | ⟨ka', kv, h1, h2, h3⟩
  · simp at h1
  · exact ho.opt n.2 h1 kb hkb (ka + n.1) (Walk.snoc (ho.ach a ka hka) hn)
  · rw [hka] at h1; rw [hkb] at h2
    cases h1; cases h2
    exact h3

/-- Along a chain of `parent` links the weights of the lightest edges add up to the difference
of the recorded distances. -/
theorem chain_weight {g : Graph} {src target t u : Nat} {s : State}
    (hnn : NonNeg g) (htot : totalWeight g < INT_MAX)
    (h : Inv g src target t u [] s) (ho : Opt g src s) :
    ∀ (l : List Nat) (a v : Nat) (ka : Int),
      List.Chain' (fun a b => s.parent b = some a ∧ b ≠ src) (a :: l) →
      (a :: l).getLast? = some v → s.d a = some ka →
      ∃ kv, s.d v = some kv ∧ pathWeight g (a :: l) = some (kv - ka) := by
  intro l
  induction l with
  | nil =>
    intro a v ka _ hv hka
    simp at hv
    subst hv
    exact ⟨ka, hka, by simp [pathWeight]⟩
  | cons b l ih =>
    intro a v ka hc hv hka
    rw [List.chain'_cons] at hc
    rw [List.getLast?_cons_cons] at hv
    obtain ⟨⟨hpar, hb⟩, hc'⟩ := hc
    obtain ⟨w, kp, hedge, hkp, hkb⟩ := ho.pd b a hpar hb
    rw [hka] at hkp
    cases hkp
    obtain ⟨kv, hkv, hpw⟩ := ih b v (ka + w) hc' hv hkb
    obtain ⟨m, hm1, hm2, hm3⟩ := lightest_some hedge
    have hax := (h.par b a hpar hb).1
    have h1 := edge_le hnn htot h ho hax hm2 hka hkb
    have h2 := hm3 w hedge
    simp only at h1
    have hmw : m = w := by omega
    subst hmw
    refine ⟨kv, hkv, ?_⟩
    unfold pathWeight
    rw [hm1, hpw]
    simp only [Option.some.injEq]
    omega

/-- The list written at the early exit weighs the shortest distance of `target`. -/
theorem exit_weight {g : Graph} {addr : Nat → Nat} {src target t : Nat} {s : State}
    {e : Int × Nat} (hnn : NonNeg g) (htot : totalWeight g < INT_MAX)
    (hr : Reach g addr src target t s) (he : top addr s.y = some e) (ht : e.2 = target)
    {f : Nat} {p : List Nat} (hp : rebuild s.parent src f target [] = some p) :
    s.d target = some e.1 ∧ pathWeight g p = some e.1 ∧ IsShortest g src target e.1 := by
  have h := inv_of_reach hr
  have ho := opt_of_reach hnn htot hr
  have hx : e.2 ∉ s.x := by rw [ht]; exact h.tgt
  obtain ⟨hd, hmin⟩ := top_least hnn htot h ho he hx
  rw [ht] at hd hmin
  refine ⟨hd, ?_, ho.ach target e.1 hd, hmin⟩
  obtain ⟨pre, h1, h2, h3⟩ := rebuild_shape f target [] p hp
  subst h1
  cases hpre : pre ++ [target] with
  | nil => simp at hpre
  | cons a l =>
    rw [hpre] at h2 h3
    simp only [List.head?_cons, Option.some.injEq] at h3
    subst h3
    have hlast : (a :: l).getLast? = some target := by rw [← hpre]; simp
    obtain ⟨kv, hkv, hpw⟩ := chain_weight hnn htot h ho l a target 0 h2 hlast h.d_src
    rw [hd] at hkv
    cases hkv
    simpa using hpw

/-- With non-negative weights a reachable target is never missed: the frontier cannot run
empty. -/
theorem frontier_nonempty {g : Graph} {addr : Nat → Nat} {src target t : Nat} {s : State}
    (hnn : NonNeg g) (htot : totalWeight g < INT_MAX)
    (hr : Reach g addr src target t s) (hw : Reachable g src target) : s.y ≠ [] := by
  intro hy
  have h := inv_of_reach hr
  have ho := opt_of_reach hnn htot hr
  have hsrc : src ∈ s.x := by
    by_contra hn
    have := ho.front src 0 h.d_src hn
    rw [hy] at this
    cases this
  obtain ⟨W, hW⟩ := hw
  obtain ⟨p, q, w, W1, _, h2, h3, h4, _⟩ := walk_cross hnn hW hsrc h.tgt
  rcases relaxed_plain hnn htot h ho h2 h4 with ⟨_, h7⟩ | h7 | ⟨ka, kv, _, h8, _⟩
  · simp at h7
  · exact h3 h7
  · have := ho.front q kv h8 h3
    rw [hy] at this
    cases this

/-- A call on a graph with non-negative weights and a reachable target writes a list. -/
theorem run_finds {g : Graph} (addr : Nat → Nat) {src target : Nat}
    (hnn : NonNeg g) (htot : totalWeight g < INT_MAX) (hw : Reachable g src target) :
    ∃ s p, ∀ fuel, enough g ≤ fuel → run g addr src target fuel = some (s, some p) := by
  obtain ⟨⟨s, r⟩, hrun⟩ := run_total g addr src target (le_refl (enough g))
  obtain ⟨⟨t, hr⟩, h2, h3⟩ := loop_spec (enough g) 0 (init src) s r Reach.start hrun
  cases r with
  | none => exact absurd (h2 rfl) (frontier_nonempty hnn htot hr hw)
  | some p =>
    obtain ⟨⟨e, he, ht⟩, _⟩ := h3 p rfl
    obtain ⟨p', hp'⟩ := exit_run hr he ht
    exact ⟨s, p', hp'⟩

/-! ## Properties of dijkstra -/

/-- C1: on a graph with non-negative weights whose sum is below `INT_MAX`, a list written by
`dijkstra` has, counting the lightest edge between consecutive nodes, a total weight that is
the least total weight of a walk from `src` to `target`, for every address order `addr` used
by the frontier to break ties. -/
theorem dijkstra_shortest (g : Graph) (addr : Nat → Nat) (src target fuel : Nat) (s : State)
    (p : List Nat) (hnn : NonNeg g) (htot : totalWeight g < INT_MAX)
    (h : run g addr src target fuel = some (s, some p)) :
    ∃ W, pathWeight g p = some W ∧ IsShortest g src target W := by
  obtain ⟨t, e, f, hr, he, ht, hf⟩ := run_exit h
  exact ⟨e.1, (exit_weight hnn htot hr he ht hf).2⟩

theorem dijkstra_shortest_witness :
    ∃ W, pathWeight sample [0, 1, 3, 2] = some W ∧ IsShortest sample 0 2 W :=
  dijkstra_shortest sample id 0 2 20 (iter sample (iter sample (iter sample (init 0) (0, 0)) (1, 1))
    (2, 3)) [0, 1, 3, 2] (by decide) (by decide) (by rfl)

/-- C2: when the main loop reaches a state with `target` on top of the frontier (the early
exit), the call returns, whatever the weights are, and the list it writes is a walk from `src`
to `target`: it starts with `src`, ends with `target`, and each element has an edge to the
next one. -/
theorem dijkstra_exit_walk (g : Graph) (addr : Nat → Nat) (src target t : Nat) (s : State)
    (e : Int × Nat) (hr : Reach g addr src target t s) (he : top addr s.y = some e)
    (ht : e.2 = target) :
    ∃ p, (∀ fuel path, enough g ≤ fuel → dijkstra g addr src target path fuel = some p) ∧
      p.head? = some src ∧ p.getLast? = some target ∧ List.Chain' (Edge g) p := by
  obtain ⟨p, hp⟩ := exit_run hr he ht
  refine ⟨p, ?_, ?_⟩
  · intro fuel path hf
    simp [dijkstra, hp fuel hf]
  · obtain ⟨_, _, f, hr', _, _, hf⟩ := run_exit (hp (enough g) (le_refl _))
    exact rebuild_walk (inv_of_reach hr') hf

theorem dijkstra_exit_walk_witness :
    ∃ p, (∀ fuel path, enough sample ≤ fuel → dijkstra sample id 0 2 path fuel = some p) ∧
      p.head? = some 0 ∧ p.getLast? = some 2 ∧ List.Chain' (Edge sample) p :=
  dijkstra_exit_walk sample id 0 2 3 _ (3, 2)
    (Reach.step (e := (2, 3))
      (Reach.step (e := (1, 1)) (Reach.step (e := (0, 0)) Reach.start rfl (by decide))
        rfl (by decide))
      rfl (by decide))
    rfl rfl

/-- C3: on a graph with non-negative weights whose sum is below `INT_MAX`, when `target` is
reachable from `src` the call returns through the branch `target == u`: with enough fuel it
ends in a state with `target` on top of the frontier and overwrites the output list with a
list that starts with `src` and ends with `target`; the frontier does not run empty. -/
theorem dijkstra_finds (g : Graph) (addr : Nat → Nat) (src target : Nat)
    (hnn : NonNeg g) (htot : totalWeight g < INT_MAX) (hw : Reachable g src target) :
    ∃ s p, (∀ fuel, enough g ≤ fuel → run g addr src target fuel = some (s, some p)) ∧
      (∀ fuel path, enough g ≤ fuel → dijkstra g addr src target path fuel = some p) ∧
      (∃ e, top addr s.y = some e ∧ e.2 = target) ∧
      p.head? = some src ∧ p.getLast? = some target := by
  obtain ⟨s, p, hp⟩ := run_finds addr hnn htot hw
  obtain ⟨t, e, f, hr, he, ht, hf⟩ := run_exit (hp (enough g) (le_refl _))
  have hwalk := rebuild_walk (inv_of_reach hr) hf
  refine ⟨s, p, hp, ?_, ⟨e, he, ht⟩, hwalk.1, hwalk.2.1⟩
  intro fuel path hfuel
  simp [dijkstra, hp fuel hfuel]

theorem dijkstra_finds_witness :
    ∃ s p, (∀ fuel, enough sample ≤ fuel → run sample id 0 2 fuel = some (s, some p)) ∧
      (∀ fuel path, enough sample ≤ fuel → dijkstra sample id 0 2 path fuel = some p) ∧
      (∃ e, top id s.y = some e ∧ e.2 = 2) ∧
      p.head? = some 0 ∧ p.getLast? = some 2 :=
  dijkstra_finds sample id 0 2 (by decide) (by decide)
    ⟨4, Walk.snoc (W := 0) (w := 4) Walk.nil (by decide)⟩

/-- C4 (as amended): when `target` is not reachable from `src`, the call returns with the
frontier empty and leaves the output list exactly as it was on entry; nothing else tells the
caller that there is no path. -/
theorem dijkstra_unreachable (g : Graph) (addr : Nat → Nat) (src target : Nat)
    (hun : ¬ Reachable g src target) (fuel : Nat) (path : List Nat) (hf : enough g ≤ fuel) :
    dijkstra g addr src target path fuel = some path := by
  obtain ⟨s, hs, _⟩ := run_unreachable addr hun hf
  simp [dijkstra, hs]

theorem dijkstra_unreachable_witness : dijkstra sample id 2 0 [4, 5] 19 = some [4, 5] :=
  dijkstra_unreachable sample id 2 0
    (fun ⟨_, hW⟩ => absurd (walk_stays (by decide) hW) (by decide)) 19 [4, 5] (by decide)

/-- C4 (counterexample): with `target` unreachable, a caller that passes an empty list gets the
empty list back, and a caller that passes the list `[0]` gets `[0]` back, a list without the
target: the call gives no explicit sign that there is no path. -/
theorem dijkstra_unreachable_silent :
    ¬ Reachable isolated 0 1 ∧
    dijkstra isolated id 0 1 [] 5 = some [] ∧ dijkstra isolated id 0 1 [0] 5 = some [0] :=
  ⟨fun ⟨_, hW⟩ => absurd (walk_stays (by decide) hW) (by decide), by decide, by decide⟩

/-- C5: a call with `target == src` sets `path` to the one-element list `[s]`, whatever the
graph and whatever `path` held on entry; it returns from the first iteration, in the initial
state, where the distance recorded for `s` is `0`, no node is black, the only frontier entry
is `(0, s)` and the maps `d` and `parent` hold the key `s` only. -/
theorem dijkstra_self (g : Graph) (addr : Nat → Nat) (s : Nat) (path : List Nat) (fuel : Nat) :
    dijkstra g addr s s path (fuel + 1) = some [s] ∧
    run g addr s s (fuel + 1) = some (init s, some [s]) ∧
    (init s).d s = some 0 ∧ (init s).x = [] ∧ (init s).y = [(0, s)] ∧
    (init s).d = assign (fun _ => none) s 0 ∧ (init s).parent = assign (fun _ => none) s s := by
  have h : run g addr s s (fuel + 1) = some (init s, some [s]) := by
    unfold run loop
    cases fuel <;> simp [init, top, rebuild]
  exact ⟨by simp [dijkstra, h], h, by simp [init, assign], rfl, rfl, rfl, rfl⟩

/-- C6: on the graph built in `main`, the call from `n1` to `n3` returns the nodes with values
`1, 2, 4, 3`, a list of total weight `3`, whatever the addresses of the nodes are, hence
whichever of the entries `(3, n3)` and `(3, n5)` the frontier puts first. -/
theorem main_path (addr : Nat → Nat) (path : List Nat) (fuel : Nat) :
    dijkstra sample addr 0 2 path (fuel + 8) = some [0, 1, 3, 2] ∧
    vals sample [0, 1, 3, 2] = [1, 2, 4, 3] ∧ pathWeight sample [0, 1, 3, 2] = some 3 := by
  refine ⟨?_, by decide, by decide⟩
  have h3 : Reach sample addr 0 2 3 sampleThird :=
    Reach.step (e := (2, 3))
      (Reach.step (e := (1, 1)) (Reach.step (e := (0, 0)) Reach.start rfl (by decide))
        rfl (by decide))
      rfl (by decide)
  have htop : top addr sampleThird.y =
      if addr 4 < addr 2 then some (3, 4) else some (3, 2) := by
    have hy : sampleThird.y = [(3, 2), (3, 4), (4, 2)] := by decide
    rw [hy]
    simp [top, pairLt]
  have hpar : ∀ s : State, rebuild s.parent 0 3 2 [] = some [0, 1, 3, 2] →
      top addr s.y = some (3, 2) → ∀ f, loop sample addr 0 2 (f + 4) s = some (s, some [0, 1, 3, 2]) := by
    intro s hs ht f
    show loop sample addr 0 2 ((f + 3) + 1) s = _
    unfold loop
    simp only [ht, if_true]
    rw [rebuild_mono 3 (f + 3) 2 [] _ (by omega) hs]
    rfl
  unfold dijkstra
  by_cases hlt : addr 4 < addr 2
  · rw [if_pos hlt] at htop
    have h4 : Reach sample addr 0 2 4 (iter sample sampleThird (3, 4)) :=
      Reach.step h3 htop (by decide)
    have htop4 : top addr (iter sample sampleThird (3, 4)).y = some (3, 2) := by
      have hy : (iter sample sampleThird (3, 4)).y = [(4, 5), (3, 2), (4, 2)] := by decide
      rw [hy]
      simp [top, pairLt]
    rw [show fuel + 8 = (fuel + 4) + 4 by omega, reach_loop h4 (fuel + 4),
      hpar _ (by decide) htop4 fuel]
    rfl
  · rw [if_neg hlt] at htop
    rw [show fuel + 8 = (fuel + 1 + 4) + 3 by omega, reach_loop h3 (fuel + 1 + 4),
      hpar _ (by decide) htop (fuel + 1)]
    rfl

/-- C7 (as amended): on a graph with non-negative weights whose sum is below `INT_MAX` and
with `target` reachable from `src`, every call returns the same list, whatever the output
list held on entry; in particular a call that is handed the list written by an earlier call
returns that list again. -/
theorem dijkstra_same_path (g : Graph) (addr : Nat → Nat) (src target : Nat)
    (hnn : NonNeg g) (htot : totalWeight g < INT_MAX) (hw : Reachable g src target) :
    ∃ p, (∀ fuel path, enough g ≤ fuel → dijkstra g addr src target path fuel = some p) ∧
      ∀ fuel, enough g ≤ fuel → dijkstra g addr src target p fuel = some p := by
  obtain ⟨s, p, hp⟩ := run_finds addr hnn htot hw
  have h : ∀ fuel path, enough g ≤ fuel → dijkstra g addr src target path fuel = some p := by
    intro fuel path hf
    simp [dijkstra, hp fuel hf]
  exact ⟨p, h, fun fuel hf => h fuel p hf⟩

theorem dijkstra_same_path_witness :
    ∃ p, (∀ fuel path, enough sample ≤ fuel → dijkstra sample id 0 5 path fuel = some p) ∧
      ∀ fuel, enough sample ≤ fuel → dijkstra sample id 0 5 p fuel = some p :=
  dijkstra_same_path sample id 0 5 (by decide) (by decide)
    ⟨1 + 2 + 1, Walk.snoc (b := 4) (Walk.snoc (b := 1) (Walk.snoc (b := 0) (w := 1) Walk.nil
      (by decide)) (by decide)) (by decide)⟩

/-- C7 (counterexample): the target of `heavy` is reachable by the edge of weight `INT_MAX`,
yet the call writes nothing, so that two calls return what the output list held on entry:
the empty list for one, the list `[0]` for the other. -/
theorem dijkstra_entry_dependent :
    Reachable heavy 0 1 ∧
    dijkstra heavy id 0 1 [] 5 = some [] ∧ dijkstra heavy id 0 1 [0] 5 = some [0] ∧
    dijkstra heavy id 0 1 [] 5 ≠ dijkstra heavy id 0 1 [0] 5 :=
  ⟨⟨0 + 2147483647, Walk.snoc (b := 0) Walk.nil (by decide)⟩, by decide, by decide, by decide⟩

/-- C8: on a graph with non-negative weights whose sum is below `INT_MAX`, in every state in
which the loop test is evaluated, a node on top of the frontier that is not black has the
least weight of a walk from `src` as its recorded distance (so has `target` at the early
exit), and every black node has the least weight of a walk from `src` recorded. -/
theorem top_shortest (g : Graph) (addr : Nat → Nat) (src target t : Nat) (s : State)
    (hnn : NonNeg g) (htot : totalWeight g < INT_MAX) (hr : Reach g addr src target t s) :
    (∀ e, top addr s.y = some e → e.2 ∉ s.x →
      ∃ k, s.d e.2 = some k ∧ IsShortest g src e.2 k) ∧
    (∀ v ∈ s.x, ∃ k, s.d v = some k ∧ IsShortest g src v k) ∧
    (∀ e, top addr s.y = some e → e.2 = target →
      ∃ k, s.d target = some k ∧ IsShortest g src target k) := by
  have h := inv_of_reach hr
  have ho := opt_of_reach hnn htot hr
  have first : ∀ e, top addr s.y = some e → e.2 ∉ s.x →
      ∃ k, s.d e.2 = some k ∧ IsShortest g src e.2 k := by
    intro e he hx
    obtain ⟨hd, hmin⟩ := top_least hnn htot h ho he hx
    exact ⟨e.1, hd, ho.ach e.2 e.1 hd, hmin⟩
  refine ⟨first, ?_, ?_⟩
  · intro v hv
    obtain ⟨k, hk⟩ := h.x_d v hv
    exact ⟨k, hk, ho.ach v k hk, ho.opt v hv k hk⟩
  · intro e he ht
    have := first e he (by rw [ht]; exact h.tgt)
    rw [ht] at this
    exact this

theorem top_shortest_witness :
    (∀ e, top id sampleThird.y = some e → e.2 ∉ sampleThird.x →
      ∃ k, sampleThird.d e.2 = some k ∧ IsShortest sample 0 e.2 k) ∧
    (∀ v ∈ sampleThird.x, ∃ k, sampleThird.d v = some k ∧ IsShortest sample 0 v k) ∧
    (∀ e, top id sampleThird.y = some e → e.2 = 2 →
      ∃ k, sampleThird.d 2 = some k ∧ IsShortest sample 0 2 k) :=
  top_shortest sample id 0 2 3 sampleThird (by decide) (by decide)
    (Reach.step (e := (2, 3))
      (Reach.step (e := (1, 1)) (Reach.step (e := (0, 0)) Reach.start rfl (by decide))
        rfl (by decide))
      rfl (by decide))

/-- C9 (as amended): relaxing an edge `(w, v)` out of `u`, with `w` non-negative, `v` not
black and without a recorded distance, and `d[u] + w` below `INT_MAX`, records
`d[v] = d[u] + w` and `parent[v] = u` and pushes `(d[u] + w, v)` onto the frontier. -/
theorem relax_fresh (u : Nat) (s : State) (w : Int) (v : Nat) (k : Int)
    (hw : 0 ≤ w) (hk : s.d u = some k) (hk0 : -2147483648 ≤ k) (hsum : k + w < INT_MAX)
    (hx : v ∉ s.x) (hv : s.d v = none) :
    (relax u s (w, v)).d v = some (k + w) ∧ (relax u s (w, v)).parent v = some u ∧
    (relax u s (w, v)).y = (k + w, v) :: s.y ∧ (relax u s (w, v)).x = s.x := by
  have hwrap : wrap (k + w) = k + w :=
    wrap_of_range (by omega) (by unfold INT_MAX at hsum; omega)
  have hlt : dist s.d v > wrap (k + w) := by
    rw [hwrap, dist_le_max_of_none hv]; exact hsum
  have hlt' : k + w < dist s.d v := by rw [hwrap] at hlt; exact hlt
  rw [relax_of_some hk]
  simp only [if_neg hx, hwrap, gt_iff_lt, if_pos hlt']
  simp [assign]

theorem relax_fresh_witness :
    (relax 0 (settle (init 0) (0, 0)) (4, 2)).d 2 = some (0 + 4) ∧
    (relax 0 (settle (init 0) (0, 0)) (4, 2)).parent 2 = some 0 ∧
    (relax 0 (settle (init 0) (0, 0)) (4, 2)).y = (0 + 4, 2) :: (settle (init 0) (0, 0)).y ∧
    (relax 0 (settle (init 0) (0, 0)) (4, 2)).x = (settle (init 0) (0, 0)).x :=
  relax_fresh 0 (settle (init 0) (0, 0)) 4 2 0 (by decide) (by decide) (by decide) (by decide)
    (by decide) (by decide)

/-- C9 (counterexample): the edge of weight `INT_MAX` out of the source, whose recorded
distance is `0`, towards a node that is not black and has no recorded distance: the
relaxation records nothing and pushes nothing. -/
theorem relax_max_weight :
    (0 : Int) ≤ 2147483647 ∧ 1 ∉ (settle (init 0) (0, 0)).x ∧
    (settle (init 0) (0, 0)).d 0 = some 0 ∧ (settle (init 0) (0, 0)).d 1 = none ∧
    (relax 0 (settle (init 0) (0, 0)) (2147483647, 1)).d 1 = none ∧
    (relax 0 (settle (init 0) (0, 0)) (2147483647, 1)).parent 1 = none ∧
    (relax 0 (settle (init 0) (0, 0)) (2147483647, 1)).y = [] := by
  decide

/-- C10: `dijkstra` as written returns the same list as the variant that discards a popped
entry whose node is black, for every graph and all weights (both calls return, with enough
fuel); and in every state reached by the main loop, popping an entry whose node is black
changes nothing but the frontier, which loses that entry: no distance and no parent is changed
and nothing is pushed. -/
theorem dijkstra_eq_skip (g : Graph) (addr : Nat → Nat) (src target : Nat) :
    (∀ path fuel, dijkstra g addr src target path fuel = dijkstraSkip g addr src target path fuel) ∧
    (∀ path fuel, enough g ≤ fuel → ∃ p, dijkstra g addr src target path fuel = some p ∧
      dijkstraSkip g addr src target path fuel = some p) ∧
    ∀ t s e, Reach g addr src target t s → top addr s.y = some e → e.2 ∈ s.x →
      iter g s e = { s with y := s.y.erase e } := by
  have heq : ∀ path fuel,
      dijkstra g addr src target path fuel = dijkstraSkip g addr src target path fuel := by
    intro path fuel
    unfold dijkstra dijkstraSkip run
    rw [loop_eq_loopSkip fuel 0 _ (inv_init g src target 0)]
  refine ⟨heq, ?_, ?_⟩
  · intro path fuel hf
    obtain ⟨r, hr⟩ := run_total g addr src target hf
    have h1 : dijkstra g addr src target path fuel = some (r.2.getD path) := by
      simp [dijkstra, hr]
    exact ⟨r.2.getD path, h1, by rw [← heq, h1]⟩
  · intro t s e hr _ hx
    exact iter_stale (inv_of_reach hr) hx

theorem dijkstra_eq_skip_witness :
    dijkstra sample id 0 5 [] 20 = dijkstraSkip sample id 0 5 [] 20 ∧
    (∃ p, dijkstra sample id 0 5 [] 20 = some p ∧ dijkstraSkip sample id 0 5 [] 20 = some p) ∧
    iter sample sampleStale (4, 2) = { sampleStale with y := sampleStale.y.erase (4, 2) } :=
  ⟨(dijkstra_eq_skip sample id 0 5).1 [] 20,
   (dijkstra_eq_skip sample id 0 5).2.1 [] 20 (by decide),
   (dijkstra_eq_skip sample id 0 5).2.2 5 sampleStale (4, 2)
    (Reach.step (e := (3, 4)) (Reach.step (e := (3, 2)) (Reach.step (e := (2, 3))
      (Reach.step (e := (1, 1)) (Reach.step (e := (0, 0)) Reach.start rfl (by decide))
        rfl (by decide)) rfl (by decide)) rfl (by decide)) rfl (by decide))
    rfl (by decide)⟩

/-! ## Further properties of dijkstra -/

theorem relax_x (u : Nat) (s : State) (n : Int × Nat) : (relax u s n).x = s.x := by
  unfold relax
  by_cases hx : n.2 ∈ s.x
  · rw [if_pos hx]
  · rw [if_neg hx]
    simp only
    split <;> rfl

theorem fold_x (u : Nat) (l : List (Int × Nat)) (s : State) :
    (l.foldl (relax u) s).x = s.x := by
  induction l generalizing s with
  | nil => rfl
  | cons n rest ih => rw [List.foldl_cons, ih, relax_x]

theorem iter_x (g : Graph) (s : State) (e : Int × Nat) :
    (iter g s e).x = setInsert s.x e.2 := by
  unfold iter
  rw [fold_x]
  rfl

theorem freshPops_nodup (g : Graph) (addr : Nat → Nat) (src target : Nat) :
    ∀ (fuel : Nat) (s : State),
      (freshPops g addr src target fuel s).Nodup ∧
      ∀ v ∈ freshPops g addr src target fuel s, v ∉ s.x := by
  intro fuel
  induction fuel with
  | zero => intro s; simp [freshPops]
  | succ fuel ih =>
    intro s
    unfold freshPops
    cases he : top addr s.y with
    | none => simp
    | some e =>
      simp only
      by_cases ht : target = e.2
      · simp [if_pos ht]
      · rw [if_neg ht]
        obtain ⟨h1, h2⟩ := ih (iter g s e)
        rw [iter_x] at h2
        by_cases hx : e.2 ∈ s.x
        · rw [if_pos hx]
          refine ⟨h1, ?_⟩
          intro v hv hvx
          exact h2 v hv (mem_setInsert.2 (Or.inr hvx))
        · rw [if_neg hx]
          refine ⟨List.nodup_cons.2 ⟨?_, h1⟩, ?_⟩
          · intro hmem
            exact h2 e.2 hmem (mem_setInsert.2 (Or.inl rfl))
          · intro v hv hvx
            rcases List.mem_cons.1 hv with rfl | hv'
            · exact hx hvx
            · exact h2 v hv' (mem_setInsert.2 (Or.inr hvx))

theorem pops_length {g : Graph} (addr : Nat → Nat) {src target : Nat} :
    ∀ (fuel t : Nat) (s : State), Inv g src target t 0 [] s →
      (pops g addr src target fuel s).length + t ≤ numEdges g + 1 := by
  intro fuel
  induction fuel with
  | zero =>
    intro t s h
    have h1 := h.cnt
    have h2 := degSum_le (g := g) h.x_nodup
    simp only [pops, List.length_nil]
    omega
  | succ fuel ih =>
    intro t s h
    have h1 := h.cnt
    have h2 := degSum_le (g := g) h.x_nodup
    unfold pops
    cases he : top addr s.y with
    | none => simp only [List.length_nil]; omega
    | some e =>
      simp only
      by_cases ht : target = e.2
      · rw [if_pos ht]; simp only [List.length_nil]; omega
      · rw [if_neg ht]
        have := ih (t + 1) _ (inv_iter h (top_mem he) ht)
        simp only [List.length_cons]
        omega

theorem loop_mono {g : Graph} {addr : Nat → Nat} {src target : Nat} :
    ∀ (f k : Nat) (s : State) (r : State × Option (List Nat)),
      loop g addr src target f s = some r → loop g addr src target (f + k) s = some r := by
  intro f
  induction f with
  | zero => intro k s r h; simp [loop] at h
  | succ f ih =>
    intro k s r h
    rw [show f + 1 + k = (f + k) + 1 by omega]
    unfold loop at h ⊢
    cases he : top addr s.y with
    | none => rw [he] at h; exact h
    | some e =>
      rw [he] at h
      simp only at h ⊢
      by_cases ht : target = e.2
      · rw [if_pos ht] at h ⊢
        cases hp : rebuild s.parent src f e.2 [] with
        | none => rw [hp] at h; cases h
        | some p =>
          rw [hp] at h
          rw [rebuild_mono f (f + k) e.2 [] p (by omega) hp]
          exact h
      · rw [if_neg ht] at h ⊢
        exact ih k _ r h

/-- C11 (as amended): a node is inserted into `x` at most once: the executions of the step
`y.pop(); x.insert(u);` for a node that is not black yet concern pairwise distinct nodes.
The step is executed again for every stale entry of a black node; such an execution changes
nothing but the frontier, which loses the entry, and the step is executed at most once more
than the graph has edges. -/
theorem settled_once (g : Graph) (addr : Nat → Nat) (src target fuel : Nat) :
    (freshPops g addr src target fuel (init src)).Nodup ∧
    (pops g addr src target fuel (init src)).length ≤ numEdges g + 1 ∧
    ∀ t s e, Reach g addr src target t s → top addr s.y = some e → e.2 ∈ s.x →
      iter g s e = { s with y := s.y.erase e } := by
  refine ⟨(freshPops_nodup g addr src target fuel (init src)).1, ?_, ?_⟩
  · have := pops_length addr fuel 0 (init src) (inv_init g src target 0)
    omega
  · intro t s e hr _ hx
    exact iter_stale (inv_of_reach hr) hx

theorem settled_once_witness :
    (freshPops sample id 0 5 20 (init 0)).Nodup ∧
    (pops sample id 0 5 20 (init 0)).length ≤ numEdges sample + 1 ∧
    iter sample sampleStale (4, 2) = { sampleStale with y := sampleStale.y.erase (4, 2) } :=
  ⟨(settled_once sample id 0 5 20).1, (settled_once sample id 0 5 20).2.1,
   (settled_once sample id 0 5 20).2.2 5 sampleStale (4, 2)
    (Reach.step (e := (3, 4)) (Reach.step (e := (3, 2)) (Reach.step (e := (2, 3))
      (Reach.step (e := (1, 1)) (Reach.step (e := (0, 0)) Reach.start rfl (by decide))
        rfl (by decide)) rfl (by decide)) rfl (by decide)) rfl (by decide))
    rfl (by decide)⟩

/-- C11 (counterexample): on the graph of `main`, whose weights are non-negative, the call from
`n1` to `n6` executes the step `y.pop(); x.insert(u);` and the relaxation of the edges twice
for the node `n3`: once for the entry `(3, n3)` and once for the stale entry `(4, n3)`. -/
theorem settled_twice :
    NonNeg sample ∧ pops sample id 0 5 20 (init 0) = [0, 1, 3, 2, 4, 2] ∧
    (pops sample id 0 5 20 (init 0)).count 2 = 2 ∧
    freshPops sample id 0 5 20 (init 0) = [0, 1, 3, 2, 4] := by
  decide

/-- C12: every call of `dijkstra` terminates, for non-negative weights and for any others:
with fuel `enough g` or more the main loop halts, either with an empty frontier or at the
early exit, where the reconstruction loop halts too and yields a list that starts with `src`;
the result does not depend on the fuel. -/
theorem dijkstra_terminates (g : Graph) (addr : Nat → Nat) (src target k : Nat) :
    ∃ s r, run g addr src target (enough g + k) = some (s, r) ∧
      run g addr src target (enough g) = some (s, r) ∧
      (r = none → s.y = []) ∧
      (∀ p, r = some p → (∃ e, top addr s.y = some e ∧ e.2 = target) ∧
        p.head? = some src ∧ p.getLast? = some target) ∧
      ∀ path, dijkstra g addr src target path (enough g + k) = some (r.getD path) := by
  obtain ⟨⟨s, r⟩, hrun⟩ := run_total g addr src target (le_refl (enough g))
  have hk : run g addr src target (enough g + k) = some (s, r) := loop_mono _ k _ _ hrun
  obtain ⟨⟨t, hr⟩, h2, h3⟩ := loop_spec (enough g) 0 (init src) s r Reach.start hrun
  refine ⟨s, r, hk, hrun, h2, ?_, ?_⟩
  · intro p hp
    obtain ⟨htop, f, hf⟩ := h3 p hp
    have hw := rebuild_walk (inv_of_reach hr) hf
    exact ⟨htop, hw.1, hw.2.1⟩
  · intro path
    simp [dijkstra, hk]

/-- A relaxation writes neither `d[v]` nor `parent[v]` for a black node `v`. -/
theorem relax_frozen {u : Nat} {s : State} {k : Int} (hk : s.d u = some k) (n : Int × Nat)
    {v : Nat} (hv : v ∈ s.x) :
    (relax u s n).d v = s.d v ∧ (relax u s n).parent v = s.parent v := by
  rw [relax_of_some hk]
  by_cases hx : n.2 ∈ s.x
  · rw [if_pos hx]; exact ⟨rfl, rfl⟩
  · rw [if_neg hx]
    have hne : v ≠ n.2 := fun hEq => hx (hEq ▸ hv)
    by_cases hlt : dist s.d n.2 > wrap (k + n.1)
    · rw [if_pos hlt]
      simp [assign, hne]
    · rw [if_neg hlt]; exact ⟨rfl, rfl⟩

theorem fold_frozen {u : Nat} {k : Int} (l : List (Int × Nat)) {s : State}
    (hk : s.d u = some k) (hu : u ∈ s.x) {v : Nat} (hv : v ∈ s.x) :
    (l.foldl (relax u) s).d v = s.d v ∧ (l.foldl (relax u) s).parent v = s.parent v := by
  induction l generalizing s with
  | nil => exact ⟨rfl, rfl⟩
  | cons n rest ih =>
    rw [List.foldl_cons]
    have h1 := relax_frozen hk n hu
    have h2 := relax_frozen hk n hv
    have hx := relax_x u s n
    have h3 := ih (s := relax u s n) (by rw [h1.1]; exact hk) (by rw [hx]; exact hu)
      (by rw [hx]; exact hv)
    exact ⟨h3.1.trans h2.1, h3.2.trans h2.2⟩

/-- During an iteration of the main loop nothing is written for a black node, the node that
has just become black included, whatever part of the edge list has been visited. -/
theorem iter_frozen {g : Graph} {src target t u : Nat} {s : State} {e : Int × Nat}
    (h : Inv g src target t u [] s) (he : e ∈ s.y) {v : Nat} (hv : v ∈ s.x ∨ v = e.2)
    (l : List (Int × Nat)) :
    (l.foldl (relax e.2) (settle s e)).d v = s.d v ∧
    (l.foldl (relax e.2) (settle s e)).parent v = s.parent v := by
  obtain ⟨k, hk⟩ := h.y_d e he
  have hu : e.2 ∈ (settle s e).x := mem_setInsert.2 (Or.inl rfl)
  have hv' : v ∈ (settle s e).x := by
    rcases hv with hv | hv
    · exact mem_setInsert.2 (Or.inr hv)
    · exact mem_setInsert.2 (Or.inl hv)
  exact fold_frozen (k := k) l (s := settle s e) hk hu hv'

theorem reach_zero {g : Graph} {addr : Nat → Nat} {src target : Nat} {s : State}
    (h : Reach g addr src target 0 s) : s = init src := by
  cases h
  rfl

theorem reach_det {g : Graph} {addr : Nat → Nat} {src target t : Nat} {s s' : State}
    (h : Reach g addr src target t s) (h' : Reach g addr src target t s') : s = s' := by
  induction h generalizing s' with
  | start => exact (reach_zero h').symm
  | step _ he _ ih =>
    cases h' with
    | step h0 he' _ =>
      have := ih h0
      subst this
      rw [he] at he'
      cases he'
      rfl

/-- What is recorded for a black node stays as it is in all later states of the loop. -/
theorem reach_frozen {g : Graph} {addr : Nat → Nat} {src target t : Nat} {s : State}
    (hr : Reach g addr src target t s) {v : Nat} (hv : v ∈ s.x) {t' : Nat} {s' : State}
    (hr' : Reach g addr src target t' s') (hle : t ≤ t') :
    s'.d v = s.d v ∧ s'.parent v = s.parent v ∧ v ∈ s'.x := by
  induction hr' with
  | start =>
    have ht : t = 0 := by omega
    subst ht
    rw [reach_zero hr] at hv
    simp [init] at hv
  | @step t0 s0 e0 h0 he0 _ ih =>
    by_cases hlt : t ≤ t0
    · obtain ⟨h1, h2, h3⟩ := ih hlt
      have h4 := iter_frozen (inv_of_reach h0) (top_mem he0) (Or.inl h3) (neiAt g e0.2)
      refine ⟨h4.1.trans h1, h4.2.trans h2, ?_⟩
      rw [iter_x]
      exact mem_setInsert.2 (Or.inr h3)
    · have ht : t = t0 + 1 := by omega
      subst ht
      have := reach_det hr (Reach.step h0 he0 (by assumption))
      subst this
      exact ⟨rfl, rfl, hv⟩

/-- C13: for every graph and all weights, what `d` and `parent` hold for a black node is
never changed: not while the edges of a popped node are relaxed (whatever part of the edge
list has been visited, and also for the node that has just become black), and so not in any
later state of the main loop; `d[src]` is `0` and `parent[src]` is `src` in every state. -/
theorem black_frozen (g : Graph) (addr : Nat → Nat) (src target t : Nat) (s : State)
    (hr : Reach g addr src target t s) :
    (∀ e, top addr s.y = some e → ∀ v, v ∈ s.x ∨ v = e.2 → ∀ l1 l2, neiAt g e.2 = l1 ++ l2 →
      (l1.foldl (relax e.2) (settle s e)).d v = s.d v ∧
      (l1.foldl (relax e.2) (settle s e)).parent v = s.parent v) ∧
    (∀ v ∈ s.x, ∀ t' s', Reach g addr src target t' s' → t ≤ t' →
      s'.d v = s.d v ∧ s'.parent v = s.parent v ∧ v ∈ s'.x) ∧
    s.d src = some 0 ∧ s.parent src = some src := by
  have h := inv_of_reach hr
  refine ⟨?_, ?_, h.d_src, h.par_src⟩
  · intro e he v hv l1 _ _
    exact iter_frozen h (top_mem he) hv l1
  · intro v hv t' s' hr' hle
    exact reach_frozen hr hv hr' hle

theorem black_frozen_witness :
    (∀ e, top id sampleThird.y = some e → ∀ v, v ∈ sampleThird.x ∨ v = e.2 →
      ∀ l1 l2, neiAt sample e.2 = l1 ++ l2 →
      (l1.foldl (relax e.2) (settle sampleThird e)).d v = sampleThird.d v ∧
      (l1.foldl (relax e.2) (settle sampleThird e)).parent v = sampleThird.parent v) ∧
    (∀ v ∈ sampleThird.x, ∀ t' s', Reach sample id 0 5 t' s' → 3 ≤ t' →
      s'.d v = sampleThird.d v ∧ s'.parent v = sampleThird.parent v ∧ v ∈ s'.x) ∧
    sampleThird.d 0 = some 0 ∧ sampleThird.parent 0 = some 0 :=
  black_frozen sample id 0 5 3 sampleThird
    (Reach.step (e := (2, 3))
      (Reach.step (e := (1, 1)) (Reach.step (e := (0, 0)) Reach.start rfl (by decide))
        rfl (by decide))
      rfl (by decide))

theorem relax_self {u : Nat} {s : State} (w : Int) (hu : u ∈ s.x) : relax u s (w, u) = s := by
  unfold relax
  rw [if_pos hu]

/-- C14: an edge from `u` to itself, of any weight, is skipped when the edges of `u` are
relaxed, because `u` is black by then: the relaxation of the self-loop leaves the whole state
as it is, so `d[u]` and `parent[u]` keep their values and no entry is pushed; the iteration
has the result it would have without the self-loop in the edge list, and it leaves `d[u]` and
`parent[u]` as they were when `u` was popped. -/
theorem self_loop_skipped (g : Graph) (s : State) (e : Int × Nat) (w : Int)
    (l1 l2 : List (Int × Nat)) (h : neiAt g e.2 = l1 ++ (w, e.2) :: l2) :
    relax e.2 (l1.foldl (relax e.2) (settle s e)) (w, e.2) =
      l1.foldl (relax e.2) (settle s e) ∧
    iter g s e = (l1 ++ l2).foldl (relax e.2) (settle s e) ∧
    (∀ k, s.d e.2 = some k →
      (iter g s e).d e.2 = s.d e.2 ∧ (iter g s e).parent e.2 = s.parent e.2) := by
  have hu : e.2 ∈ (settle s e).x := mem_setInsert.2 (Or.inl rfl)
  have hself : relax e.2 (l1.foldl (relax e.2) (settle s e)) (w, e.2) =
      l1.foldl (relax e.2) (settle s e) := by
    apply relax_self
    rw [fold_x]
    exact hu
  refine ⟨hself, ?_, ?_⟩
  · unfold iter
    rw [h, List.foldl_append, List.foldl_cons, hself, List.foldl_append]
  · intro k hk
    exact fold_frozen (k := k) (neiAt g e.2) (s := settle s e) hk hu hu

theorem self_loop_skipped_witness :
    relax 0 (([] : List (Int × Nat)).foldl (relax 0) (settle (init 0) (0, 0))) (5, 0) =
      ([] : List (Int × Nat)).foldl (relax 0) (settle (init 0) (0, 0)) ∧
    iter looped (init 0) (0, 0) =
      (([] : List (Int × Nat)) ++ [(1, 1)]).foldl (relax 0) (settle (init 0) (0, 0)) ∧
    (∀ k, (init 0).d 0 = some k →
      (iter looped (init 0) (0, 0)).d 0 = (init 0).d 0 ∧
      (iter looped (init 0) (0, 0)).parent 0 = (init 0).parent 0) :=
  self_loop_skipped looped (init 0) (0, 0) 5 [] [(1, 1)] (by decide)

/-- The walks of `negGraph` that start at node `0`. -/
theorem negGraph_walks {b : Nat} {W : Int} (h : Walk negGraph 0 b W) :
    (b = 0 ∧ W = 0) ∨ (b = 1 ∧ (W = 2 ∨ W = 1)) ∨ (b = 2 ∧ W = 3) ∨
      (b = 3 ∧ (W = 3 ∨ W = 2)) := by
  induction h with
  | nil => exact Or.inl ⟨rfl, rfl⟩
  | @snoc b c W w _ he ih =>
    rcases ih with ⟨rfl, rfl⟩ | ⟨rfl, hW⟩ | ⟨rfl, rfl⟩ | ⟨rfl, _⟩
    · simp [neiAt, negGraph] at he
      rcases he with ⟨rfl, rfl⟩ | ⟨rfl, rfl⟩ <;> simp
    · simp [neiAt, negGraph] at he
      obtain ⟨rfl, rfl⟩ := he
      rcases hW with rfl | rfl <;> simp
    · simp [neiAt, negGraph] at he
      obtain ⟨rfl, rfl⟩ := he
      simp
    · simp [neiAt, negGraph] at he

/-- C15: the code does not check the weights, and with a negative weight the list written can
be too heavy: on `negGraph`, which has an edge of weight `-2`, the call from `src` to `t`
returns the list `src, a, t` of weight `3`, whatever the addresses of the nodes are, while the
walk `src, b, a, t` has weight `2`, the least weight of a walk from `src` to `t`. -/
theorem negative_edge_suboptimal (addr : Nat → Nat) (path : List Nat) (fuel : Nat) :
    ¬ NonNeg negGraph ∧
    dijkstra negGraph addr 0 3 path (fuel + 6) = some [0, 1, 3] ∧
    pathWeight negGraph [0, 1, 3] = some 3 ∧
    IsShortest negGraph 0 3 2 ∧ (2 : Int) < 3 := by
  refine ⟨by decide, ?_, by decide, ⟨?_, ?_⟩, by decide⟩
  · have h2 : Reach negGraph addr 0 3 2 negSecond :=
      Reach.step (e := (2, 1)) (Reach.step (e := (0, 0)) Reach.start rfl (by decide))
        rfl (by decide)
    have htop : top addr negSecond.y =
        if addr 2 < addr 3 then some (3, 2) else some (3, 3) := by
      have hy : negSecond.y = [(3, 3), (3, 2)] := by decide
      rw [hy]
      simp [top, pairLt]
    have hpar : ∀ s : State, rebuild s.parent 0 2 3 [] = some [0, 1, 3] →
        top addr s.y = some (3, 3) →
        ∀ f, loop negGraph addr 0 3 (f + 3) s = some (s, some [0, 1, 3]) := by
      intro s hs ht f
      show loop negGraph addr 0 3 ((f + 2) + 1) s = _
      unfold loop
      simp only [ht, if_true]
      rw [rebuild_mono 2 (f + 2) 3 [] _ (by omega) hs]
      rfl
    unfold dijkstra
    by_cases hlt : addr 2 < addr 3
    · rw [if_pos hlt] at htop
      have h3 : Reach negGraph addr 0 3 3 (iter negGraph negSecond (3, 2)) :=
        Reach.step h2 htop (by decide)
      have htop3 : top addr (iter negGraph negSecond (3, 2)).y = some (3, 3) := by
        have hy : (iter negGraph negSecond (3, 2)).y = [(3, 3)] := by decide
        rw [hy]
        rfl
      rw [show fuel + 6 = (fuel + 3) + 3 by omega, reach_loop h3 (fuel + 3),
        hpar _ (by decide) htop3 fuel]
      rfl
    · rw [if_neg hlt] at htop
      rw [show fuel + 6 = (fuel + 1 + 3) + 2 by omega, reach_loop h2 (fuel + 1 + 3),
        hpar _ (by decide) htop (fuel + 1)]
      rfl
  · have h : Walk negGraph 0 3 (0 + 3 + -2 + 1) :=
      Walk.snoc (b := 1) (Walk.snoc (b := 2) (Walk.snoc (b := 0) Walk.nil (by decide))
        (by decide)) (by decide)
    exact h
  · intro k hk
    rcases negGraph_walks hk with ⟨h1, _⟩ | ⟨h1, _⟩ | ⟨h1, _⟩ | ⟨_, h2⟩
    · omega
    · omega
    · omega
    · omega

/-- C16: when no entry for `target` ever comes on top of the frontier, as is the case when
`target` is not reachable from `src`, the call leaves the main loop with the frontier empty
and returns with the output list exactly as it was on entry, whatever it held. -/
theorem dijkstra_keeps_path (g : Graph) (addr : Nat → Nat) (src target : Nat)
    (path : List Nat) (fuel : Nat) (hf : enough g ≤ fuel)
    (h : (∀ t s e, Reach g addr src target t s → top addr s.y = some e → e.2 ≠ target) ∨
      ¬ Reachable g src target) :
    dijkstra g addr src target path fuel = some path ∧
    ∃ s, run g addr src target fuel = some (s, none) ∧ s.y = [] := by
  have hnever : ∀ t s e, Reach g addr src target t s → top addr s.y = some e →
      e.2 ≠ target := by
    rcases h with h | h
    · exact h
    · intro t s e hr he ht
      obtain ⟨k, hk⟩ := (inv_of_reach hr).y_d e (top_mem he)
      rw [ht] at hk
      exact h ((inv_of_reach hr).conn target k hk)
  obtain ⟨⟨s, r⟩, hrun⟩ := run_total g addr src target hf
  obtain ⟨⟨t, hr⟩, h2, h3⟩ := loop_spec fuel 0 (init src) s r Reach.start hrun
  cases r with
  | none => exact ⟨by simp [dijkstra, hrun], s, hrun, h2 rfl⟩
  | some p =>
    exfalso
    obtain ⟨⟨e, he, ht⟩, _⟩ := h3 p rfl
    exact hnever t s e hr he ht

theorem dijkstra_keeps_path_witness :
    dijkstra sample id 2 0 [0, 1, 3, 2] 19 = some [0, 1, 3, 2] ∧
    ∃ s, run sample id 2 0 19 = some (s, none) ∧ s.y = [] :=
  dijkstra_keeps_path sample id 2 0 [0, 1, 3, 2] 19 (by decide)
    (Or.inr (fun ⟨_, hW⟩ => absurd (walk_stays (by decide) hW) (by decide)))

/-- The nodes linked by `parent` in a state that satisfies the invariant are pairwise
distinct. -/
theorem chain_nodup {g : Graph} {src target t u : Nat} {s : State}
    (h : Inv g src target t u [] s) {l : List Nat}
    (hc : List.Chain' (fun a b => s.parent b = some a ∧ b ≠ src) l) : l.Nodup := by
  let Q : Nat → Nat → Prop := fun a b => a ∈ s.x ∧ ∀ l1 l2, s.x = l1 ++ b :: l2 → a ∈ l2
  have hQ : List.Chain' Q l := by
    apply List.Chain'.imp _ hc
    intro a b hab
    obtain ⟨h1, _, h3⟩ := h.par b a hab.1 hab.2
    exact ⟨h1, h3⟩
  haveI : IsTrans Nat Q := ⟨by
    intro a b c hab hbc
    refine ⟨hab.1, ?_⟩
    intro l1 l2 hl
    have hb := hbc.2 l1 l2 hl
    obtain ⟨m1, m2, hm⟩ := List.append_of_mem hb
    have := hab.2 (l1 ++ c :: m1) m2 (by rw [hl, hm]; simp)
    rw [hm]
    simp [this]⟩
  have hP : List.Pairwise Q l := List.chain'_iff_pairwise.1 hQ
  apply List.Pairwise.imp _ hP
  intro a b hab hEq
  subst hEq
  obtain ⟨l1, l2, hl⟩ := List.append_of_mem hab.1
  have hmem := hab.2 l1 l2 hl
  have hnd := h.x_nodup
  rw [hl] at hnd
  have := (List.nodup_cons.1 (List.nodup_append.1 hnd).2.1).1
  exact this hmem

/-- The nodes of a walk, the last one excepted, are node objects of the graph. -/
theorem chain_lt {g : Graph} : ∀ (l : List Nat) (v : Nat),
    List.Chain' (Edge g) (l ++ [v]) → ∀ a ∈ l, a < g.length := by
  intro l
  induction l with
  | nil => intro v _ a ha; cases ha
  | cons b l ih =>
    intro v hc a ha
    have hb : b < g.length := by
      by_contra hge
      have hnil := neiAt_of_le (g := g) (not_lt.1 hge)
      cases l with
      | nil =>
        simp only [List.cons_append, List.nil_append, List.chain'_cons] at hc
        obtain ⟨⟨w, hw⟩, _⟩ := hc
        rw [hnil] at hw
        cases hw
      | cons c l =>
        simp only [List.cons_append, List.chain'_cons] at hc
        obtain ⟨⟨w, hw⟩, _⟩ := hc
        rw [hnil] at hw
        cases hw
    rcases List.mem_cons.1 ha with rfl | ha'
    · exact hb
    · have htail : List.Chain' (Edge g) (l ++ [v]) := by
        rw [List.cons_append] at hc
        exact List.Chain'.tail hc
      exact ih v htail a ha'

theorem length_le_of_lt {n : Nat} {l : List Nat} (hnd : l.Nodup) (hlt : ∀ a ∈ l, a < n) :
    l.length ≤ n := by
  have h1 : l.toFinset ⊆ Finset.range n := by
    intro a ha
    rw [List.mem_toFinset] at ha
    exact Finset.mem_range.2 (hlt a ha)
  have h2 := Finset.card_le_card h1
  rw [List.toFinset_card_of_nodup hnd, Finset.card_range] at h2
  exact h2

/-- C17: for every graph and all weights, the list written by `dijkstra` contains no node
twice, because in the state of the early exit every `parent[v]`, for `v` other than `src`, is
a black node that became black before `v`; the list has at most as many elements as the
graph has node objects when `target` is one of them (and at most one more otherwise). -/
theorem path_nodup (g : Graph) (addr : Nat → Nat) (src target fuel : Nat) (s : State)
    (p : List Nat) (h : run g addr src target fuel = some (s, some p)) :
    p.Nodup ∧ p.length ≤ g.length + 1 ∧ (target < g.length → p.length ≤ g.length) ∧
    ∀ v q, s.parent v = some q → v ≠ src →
      q ∈ s.x ∧ ∀ l1 l2, s.x = l1 ++ v :: l2 → q ∈ l2 := by
  obtain ⟨t, e, f, hr, he, ht, hf⟩ := run_exit h
  have hinv := inv_of_reach hr
  obtain ⟨pre, h1, h2, _⟩ := rebuild_shape f target [] p hf
  have hnd : p.Nodup := by rw [h1]; exact chain_nodup hinv h2
  have hwalk := (rebuild_walk hinv hf).2.2
  rw [h1] at hwalk
  have hlt := chain_lt pre target hwalk
  have hpre : pre.length ≤ g.length := by
    apply length_le_of_lt _ hlt
    rw [h1] at hnd
    exact (List.nodup_append.1 hnd).1
  refine ⟨hnd, ?_, ?_, ?_⟩
  · rw [h1]; simp; omega
  · intro htl
    apply length_le_of_lt hnd
    intro a ha
    rw [h1] at ha
    rcases List.mem_append.1 ha with ha | ha
    · exact hlt a ha
    · simp at ha; rw [ha]; exact htl
  · intro v q hq hv
    obtain ⟨h3, _, h5⟩ := hinv.par v q hq hv
    exact ⟨h3, h5⟩

theorem path_nodup_witness :
    [0, 1, 3, 2].Nodup ∧ [0, 1, 3, 2].length ≤ sample.length + 1 ∧
    (2 < sample.length → [0, 1, 3, 2].length ≤ sample.length) ∧
    ∀ v q, sampleThird.parent v = some q → v ≠ 0 →
      q ∈ sampleThird.x ∧ ∀ l1 l2, sampleThird.x = l1 ++ v :: l2 → q ∈ l2 :=
  path_nodup sample id 0 2 20 sampleThird [0, 1, 3, 2] (by rfl)

theorem bnd_init (g : Graph) (src : Nat) : Bnd g (init src) where
  nonneg := by
    intro v k h
    by_cases hv : v = src
    · simp [init, assign, hv] at h
      omega
    · simp [init, assign, hv] at h
  bound := by
    intro v k h
    by_cases hv : v = src
    · simp [init, assign, hv] at h
      simp [init, weightSum, ← h]
    · simp [init, assign, hv] at h
  bound_x := by simp [init]

theorem bnd_settle_fresh {g : Graph} {s : State} {e : Int × Nat} (hnn : NonNeg g)
    (hb : Bnd g s) (hx : e.2 ∉ s.x) : Bnd g (settle s e) := by
  have hout := out_nonneg hnn e.2
  rw [settle_fresh hx]
  refine { nonneg := hb.nonneg, bound := ?_, bound_x := ?_ }
  · intro v k hk
    have := hb.bound v k hk
    show k ≤ weightSum g (e.2 :: s.x)
    rw [weightSum_cons]
    omega
  · intro a ha n hn k hk
    show k + n.1 ≤ weightSum g (e.2 :: s.x)
    rw [weightSum_cons]
    rcases List.mem_cons.1 ha with rfl | ha'
    · have h1 := hb.bound e.2 k hk
      have h2 := le_out hnn hn
      omega
    · have := hb.bound_x a ha' n hn k hk
      omega

theorem bnd_relax {g : Graph} {src target t u : Nat} {s : State} {n : Int × Nat}
    {rest : List (Int × Nat)} (hnn : NonNeg g) (htot : totalWeight g ≤ INT_MAX)
    (h : Inv g src target t u (n :: rest) s) (hb : Bnd g s) : Bnd g (relax u s n) := by
  obtain ⟨hn, hu⟩ := h.pend_sub n (List.mem_cons_self _ _)
  obtain ⟨k, hk⟩ := h.x_d u hu
  rw [relax_of_some hk]
  by_cases hx : n.2 ∈ s.x
  · rw [if_pos hx]; exact hb
  rw [if_neg hx]
  by_cases hlt : dist s.d n.2 > wrap (k + n.1)
  swap
  · rw [if_neg hlt]; exact hb
  rw [if_pos hlt]
  have hne : ∀ a ∈ s.x, a ≠ n.2 := fun a ha hEq => hx (hEq ▸ ha)
  have h2 := hb.bound_x u hu n hn k hk
  have h3 := weightSum_le hnn h.x_nodup
  have h4 := hb.nonneg u k hk
  have h5 := nonneg_of_mem hnn hn
  have hw : wrap (k + n.1) = k + n.1 :=
    wrap_of_range (by omega) (by unfold INT_MAX at htot; omega)
  rw [hw]
  refine { nonneg := ?_, bound := ?_, bound_x := ?_ }
  · intro v k' hv
    by_cases hvn : v = n.2
    · simp only [assign, if_pos hvn, Option.some.injEq] at hv
      omega
    · simp only [assign, if_neg hvn] at hv
      exact hb.nonneg v k' hv
  · intro v k' hv
    by_cases hvn : v = n.2
    · simp only [assign, if_pos hvn, Option.some.injEq] at hv
      subst hv
      exact h2
    · simp only [assign, if_neg hvn] at hv
      exact hb.bound v k' hv
  · intro a ha m hm k' hk'
    simp only [assign, if_neg (hne a ha)] at hk'
    exact hb.bound_x a ha m hm k' hk'

theorem bnd_fold {g : Graph} {src target t u : Nat} (hnn : NonNeg g)
    (htot : totalWeight g ≤ INT_MAX) (pend : List (Int × Nat)) {s : State}
    (h : Inv g src target t u pend s) (hb : Bnd g s) : Bnd g (pend.foldl (relax u) s) := by
  induction pend generalizing s with
  | nil => exact hb
  | cons n rest ih => exact ih (inv_relax h) (bnd_relax hnn htot h hb)

/-- The bounds hold after `y.pop(); x.insert(u);`, whether `u` was black before or not. -/
theorem bnd_settle {g : Graph} {s : State} (e : Int × Nat) (hnn : NonNeg g)
    (hb : Bnd g s) : Bnd g (settle s e) := by
  by_cases hx : e.2 ∈ s.x
  · rw [settle_stale hx]
    exact { nonneg := hb.nonneg, bound := hb.bound, bound_x := hb.bound_x }
  · exact bnd_settle_fresh hnn hb hx

theorem bnd_iter {g : Graph} {src target t u : Nat} {s : State} {e : Int × Nat}
    (hnn : NonNeg g) (htot : totalWeight g ≤ INT_MAX)
    (h : Inv g src target t u [] s) (hb : Bnd g s) (he : e ∈ s.y) (ht : target ≠ e.2) :
    Bnd g (iter g s e) := by
  by_cases hx : e.2 ∈ s.x
  · rw [iter_stale h hx]
    exact { nonneg := hb.nonneg, bound := hb.bound, bound_x := hb.bound_x }
  · exact bnd_fold hnn htot _ (inv_settle_fresh h he hx ht) (bnd_settle_fresh hnn hb hx)

theorem bnd_of_reach {g : Graph} {addr : Nat → Nat} {src target t : Nat} {s : State}
    (hnn : NonNeg g) (htot : totalWeight g ≤ INT_MAX)
    (h : Reach g addr src target t s) : Bnd g s := by
  induction h with
  | start => exact bnd_init g src
  | step hr he ht ih => exact bnd_iter hnn htot (inv_of_reach hr) ih (top_mem he) ht

/-- C18: on a graph with non-negative weights whose sum is at most `INT_MAX`, every recorded
distance lies in the range `0 .. INT_MAX`, and so does every candidate `d[u] + n.first`
formed while the edges of a popped node `u` are relaxed, whatever part of the edge list has
been visited before the edge `n`: the addition does not overflow, the 32-bit sum is the
exact sum. -/
theorem candidate_in_range (g : Graph) (addr : Nat → Nat) (src target t : Nat) (s : State)
    (hnn : NonNeg g) (htot : totalWeight g ≤ INT_MAX) (hr : Reach g addr src target t s) :
    (∀ v k, s.d v = some k → 0 ≤ k ∧ k ≤ INT_MAX) ∧
    ∀ e, top addr s.y = some e → ∀ l1 n l2, neiAt g e.2 = l1 ++ n :: l2 →
      0 ≤ readAt (l1.foldl (relax e.2) (settle s e)).d e.2 0 + n.1 ∧
      readAt (l1.foldl (relax e.2) (settle s e)).d e.2 0 + n.1 ≤ INT_MAX ∧
      wrap (readAt (l1.foldl (relax e.2) (settle s e)).d e.2 0 + n.1) =
        readAt (l1.foldl (relax e.2) (settle s e)).d e.2 0 + n.1 := by
  have h := inv_of_reach hr
  have hb := bnd_of_reach hnn htot hr
  have hsum := weightSum_le hnn h.x_nodup
  constructor
  · intro v k hk
    have h1 := hb.nonneg v k hk
    have h2 := hb.bound v k hk
    exact ⟨h1, by omega⟩
  · intro e he l1 n l2 hsplit
    obtain ⟨k, hk⟩ := h.y_d e (top_mem he)
    have hfro := (iter_frozen h (top_mem he) (Or.inr rfl) l1).1
    have hread : readAt (l1.foldl (relax e.2) (settle s e)).d e.2 0 = k := by
      unfold readAt
      rw [hfro, hk]
      rfl
    rw [hread]
    have hbs := bnd_settle e hnn hb
    have hn : n ∈ neiAt g e.2 := by rw [hsplit]; simp
    have hu : e.2 ∈ (settle s e).x := mem_setInsert.2 (Or.inl rfl)
    have h1 := hbs.bound_x e.2 hu n hn k hk
    have hnd : (settle s e).x.Nodup := by
      by_cases hx : e.2 ∈ s.x
      · rw [settle_stale hx]; exact h.x_nodup
      · rw [settle_fresh hx]; exact List.nodup_cons.2 ⟨hx, h.x_nodup⟩
    have h2 := weightSum_le hnn hnd
    have h3 := hb.nonneg e.2 k hk
    have h4 := nonneg_of_mem hnn hn
    have hle : k + n.1 ≤ INT_MAX := by omega
    refine ⟨by omega, hle, wrap_of_range (by omega) (by unfold INT_MAX at hle; omega)⟩

theorem candidate_in_range_witness :
    (∀ v k, sampleThird.d v = some k → 0 ≤ k ∧ k ≤ INT_MAX) ∧
    ∀ e, top id sampleThird.y = some e → ∀ l1 n l2, neiAt sample e.2 = l1 ++ n :: l2 →
      0 ≤ readAt (l1.foldl (relax e.2) (settle sampleThird e)).d e.2 0 + n.1 ∧
      readAt (l1.foldl (relax e.2) (settle sampleThird e)).d e.2 0 + n.1 ≤ INT_MAX ∧
      wrap (readAt (l1.foldl (relax e.2) (settle sampleThird e)).d e.2 0 + n.1) =
        readAt (l1.foldl (relax e.2) (settle sampleThird e)).d e.2 0 + n.1 :=
  candidate_in_range sample id 0 5 3 sampleThird (by decide) (by decide)
    (Reach.step (e := (2, 3))
      (Reach.step (e := (1, 1)) (Reach.step (e := (0, 0)) Reach.start rfl (by decide))
        rfl (by decide))
      rfl (by decide))

end Dijkstra
